import Mathlib

/-!
Bounding volume hierarchy: construction and nearest-hit query.

A shallow embedding of `hittable/bvh.go` and `pkg/trace/sphere.go`.  The bounding boxes of
`hittable/aabb.go` and the vector helpers of `pkg/trace`, which the two files call, are modelled
from the specification and marked as such.

Conventions of the embedding:

* `float64` has two readings.  In the exact reading a `float64` is a rational (`ℚ`): rounding,
  infinities and NaN do not occur, and `math.Sqrt` is a parameter of `sphere.hit`.  The
  hierarchy (boxes, hit records, query) and the recursion of the construction are stated in this
  reading; what is proved there does not depend on the values of spreads and pivots, or is
  stated over exact arithmetic.  In the binary64 reading a `float64` is a value of `F64`: NaN,
  the infinities, or a finite value, with every operation rounded by itself to nearest (ties to
  even; no fused multiply-add), overflowing to an infinity, and with the comparisons and
  `math.Min`, `math.Max`, `math.Sqrt` of IEEE-754 and Go.  `sphere.hit` and the partition of
  the construction are embedded a second time in this reading, under the prefix `Binary64`, and
  the statements on root selection, on the interval invariant, on coincident centroids and on
  the choice of the axis are about these.
* A Go result pair `(bool, *HitRecord)` is an `Option HitRecord`: every `Hit` of the source
  returns either `(false, nil)` or `(true, &record)`.
* A Go slice that is mutated in place is a `List` that is passed in and returned.
* A Go panic, and a recursion that does not come back, is a value of `Failure`.
-/

namespace Solstrale

/-! ## Vectors, rays, intervals, hit records -/

/-- Three floating-point components (`geo.Vec3`, `trace.vec3`). -/
structure Vec3 where
  X : ℚ
  Y : ℚ
  Z : ℚ
deriving DecidableEq

/-- Modelled from the spec: componentwise subtraction of vectors (`vec3.sub`). -/
def Vec3.sub (a b : Vec3) : Vec3 := ⟨a.X - b.X, a.Y - b.Y, a.Z - b.Z⟩

/-- Modelled from the spec: componentwise addition of vectors. -/
def Vec3.add (a b : Vec3) : Vec3 := ⟨a.X + b.X, a.Y + b.Y, a.Z + b.Z⟩

/-- Modelled from the spec: dot product (`vec3.dot`). -/
def Vec3.dot (a b : Vec3) : ℚ := a.X * b.X + a.Y * b.Y + a.Z * b.Z

/-- Modelled from the spec: squared length (`vec3.lengthSquared`). -/
def Vec3.lengthSquared (a : Vec3) : ℚ := a.X * a.X + a.Y * a.Y + a.Z * a.Z

/-- Modelled from the spec: multiplication by a scalar. -/
def Vec3.mulS (a : Vec3) (t : ℚ) : Vec3 := ⟨a.X * t, a.Y * t, a.Z * t⟩

/-- Modelled from the spec: uniform division by a scalar (`vec3.divS`). -/
def Vec3.divS (a : Vec3) (t : ℚ) : Vec3 := ⟨a.X / t, a.Y / t, a.Z / t⟩

/-- Origin and direction of a ray (`geo.Ray`, `trace.ray`). -/
structure ray where
  orig : Vec3
  dir : Vec3
deriving DecidableEq

/-- Modelled from the spec: the point `origin + t * direction` (`ray.at`). -/
def ray.pointAt (r : ray) (t : ℚ) : Vec3 := r.orig.add (r.dir.mulS t)

/-- A closed range of ray parameters (`util.Interval`). -/
structure Interval where
  Min : ℚ
  Max : ℚ
deriving DecidableEq

/-- The payload of a successful hit test: hit point, normal and ray parameter
(`material.HitRecord`, `trace.hitRecord`); the material reference is left out. -/
structure HitRecord where
  HitPoint : Vec3
  Normal : Vec3
  RayLength : ℚ
deriving DecidableEq

/-- Modelled from the spec: `createHitRecord(r, p, normal, root)` fills the record with the hit
point, the outward normal and the chosen root as `RayLength`. -/
def createHitRecord (_r : ray) (p normal : Vec3) (root : ℚ) : HitRecord :=
  { HitPoint := p, Normal := normal, RayLength := root }

/-! ## Axis-aligned bounding boxes (`hittable/aabb.go`, not among the sources) -/

/-- Modelled from the spec: an axis-aligned box is its componentwise minimal and maximal
corner. -/
structure aabb where
  min : Vec3
  max : Vec3
deriving DecidableEq

/-- Modelled from the spec: `combineAabbs(a, b)`, the union of two boxes, is the componentwise
minimum of the minimal corners and maximum of the maximal corners. -/
def combineAabbs (a b : aabb) : aabb :=
  { min := ⟨Min.min a.min.X b.min.X, Min.min a.min.Y b.min.Y, Min.min a.min.Z b.min.Z⟩,
    max := ⟨Max.max a.max.X b.max.X, Max.max a.max.Y b.max.Y, Max.max a.max.Z b.max.Z⟩ }

/-- Modelled from the spec: `aabb.center()`, the midpoint of the two corners. -/
def aabb.center (b : aabb) : Vec3 :=
  ⟨(b.min.X + b.max.X) * (1 / 2), (b.min.Y + b.max.Y) * (1 / 2), (b.min.Z + b.max.Z) * (1 / 2)⟩

/-- Modelled from the spec: one axis of the slab test of `aabb.hit`.  The two parameters at
which the ray crosses the planes `lo` and `hi` are computed with the reciprocal of the direction
component and intersected with the range found so far.  A zero direction component makes the
ray parallel to the slab: the range is kept when the origin lies inside the slab and the test
fails (`none`) otherwise, an origin on the boundary counting as outside. -/
def aabb.clipAxis (lo hi orig dir : ℚ) (rayLength : Interval) : Option Interval :=
  if dir = 0 then
    if lo < orig ∧ orig < hi then some rayLength else none
  else
    let invD := 1 / dir
    let t0 := (lo - orig) * invD
    let t1 := (hi - orig) * invD
    let near := if invD < 0 then t1 else t0
    let far := if invD < 0 then t0 else t1
    some { Min := Max.max near rayLength.Min, Max := Min.min far rayLength.Max }

/-- Modelled from the spec: `aabb.hit(ray, interval)`.  The three axis ranges are intersected
with the incoming interval; an empty result (`Max ≤ Min`, so a range that only touches a
boundary is empty) is a miss. -/
def aabb.hit (b : aabb) (r : ray) (rayLength : Interval) : Bool :=
  match (aabb.clipAxis b.min.X b.max.X r.orig.X r.dir.X rayLength).bind
      (fun ix => (aabb.clipAxis b.min.Y b.max.Y r.orig.Y r.dir.Y ix).bind
        (fun iy => aabb.clipAxis b.min.Z b.max.Z r.orig.Z r.dir.Z iy)) with
  | none => false
  | some i => decide (i.Min < i.Max)

/-! ## The `Hittable` interface and the `bvh` node -/

/-- The method set of the Go interface `Hittable`, as far as `bvh.go` calls it: any
implementation other than the `bvh` node itself is a value of this record. -/
structure Primitive where
  Hit : ray → Interval → Option HitRecord
  BoundingBox : aabb
  Center : Vec3
  IsLight : Bool

/-- A `Hittable` is a primitive or a `bvh` node (`struct bvh` with fields `left`, `right` and
`bBox`). -/
inductive Hittable where
  | prim (p : Primitive)
  | bvh (left right : Hittable) (bBox : aabb)

/-- `BoundingBox()`: a `bvh` node answers with its cached box (bvh.go, line 128). -/
def Hittable.BoundingBox : Hittable → aabb
  | .prim p => p.BoundingBox
  | .bvh _ _ bBox => bBox

/-- `IsLight()`: a `bvh` node is never a light (bvh.go, line 132). -/
def Hittable.IsLight : Hittable → Bool
  | .prim p => p.IsLight
  | .bvh _ _ _ => false

/-- `Center()`: a `bvh` node answers with the centre of its box (bvh.go, line 136). -/
def Hittable.Center : Hittable → Vec3
  | .prim p => p.Center
  | .bvh _ _ bBox => bBox.center

/-- `bvh.Hit` (bvh.go, lines 110-126): test the node's box, query the left child, shrink the
upper bound to the left hit's `RayLength` when it hit, query the right child, and let a right
hit supersede the left one. -/
def Hittable.Hit : Hittable → ray → Interval → Option HitRecord
  | .prim p, r, rayLength => p.Hit r rayLength
  | .bvh left right bBox, r, rayLength =>
    if !bBox.hit r rayLength then
      none
    else
      let hitLeft := left.Hit r rayLength
      let rayLength2 : Interval :=
        match hitLeft with
        | some rec => { Min := rayLength.Min, Max := rec.RayLength }
        | none => rayLength
      match right.Hit r rayLength2 with
      | some recRight => some recRight
      | none => hitLeft

/-! ## Construction -/

/-- The ways in which construction can fail to hand back a tree. -/
inductive Failure where
  | panic (msg : String)
  | indexOutOfRange
  | outOfFuel
deriving DecidableEq

/-- `boundingBoxSpread` (bvh.go, lines 80-88) over exact arithmetic.  The running minimum and
maximum start at `+Infinity` and `-Infinity`, which are neutral for `math.Min` and `math.Max`;
the accumulator is `none` until the first element has been folded in.  On the empty slice, where
Go yields `-Inf` and NaN, the result is `(0, 0)`: there all three spreads are equal and the
partition of the empty slice does not read the centre.  `Binary64.boundingBoxSpread` is the same
function in `float64` arithmetic. -/
def boundingBoxSpread (list : List Primitive) (centerFunc : Primitive → ℚ) : ℚ × ℚ :=
  let acc := list.foldl
    (fun (acc : Option (ℚ × ℚ)) h =>
      match acc with
      | none => some (centerFunc h, centerFunc h)
      | some (min, max) => some (Min.min min (centerFunc h), Max.max max (centerFunc h)))
    none
  match acc with
  | none => (0, 0)
  | some (min, max) => (max - min, (min + max) * (1 / 2))

/-- The loop of `sortHittablesByCenter` (bvh.go, lines 95-105).  The Go index `j` is kept as
`jSucc = j + 1`, so that its value `-1` on the empty slice is a natural number; the loop
condition `i <= j` reads `i < jSucc`.  The first argument bounds the number of iterations.  Both
indices stay inside the slice as long as `jSucc <= len(list)`; an index outside of it ends the
loop. -/
def sortHittablesByCenter.loop (center : ℚ) (boundingCenterFunc : Primitive → ℚ) :
    Nat → List Primitive → Nat → Nat → List Primitive × Nat
  | 0, list, i, _ => (list, i)
  | fuel + 1, list, i, jSucc =>
    if i < jSucc then
      match list[i]?, list[jSucc - 1]? with
      | some tmpI, some tmpJ =>
        if boundingCenterFunc tmpI < center then
          sortHittablesByCenter.loop center boundingCenterFunc fuel list (i + 1) jSucc
        else
          sortHittablesByCenter.loop center boundingCenterFunc fuel
            ((list.set i tmpJ).set (jSucc - 1) tmpI) i (jSucc - 1)
      | _, _ => (list, i)
    else
      (list, i)

/-- `sortHittablesByCenter` (bvh.go, lines 90-108): the two-pointer partition of a slice around
`center`; returns the permuted slice and the index `i`.  Every iteration shrinks `j - i` by one,
so `len(list)` iterations are enough. -/
def sortHittablesByCenter (list : List Primitive) (center : ℚ)
    (boundingCenterFunc : Primitive → ℚ) : List Primitive × Nat :=
  sortHittablesByCenter.loop center boundingCenterFunc list.length list 0 list.length

/-- `sortHittablesSliceByMostSpreadAxis` (bvh.go, lines 64-78): partition `list[start:end]`
around the midpoint of the axis with the largest spread of centres, x before y before z.
Returns the list with the permuted slice written back, and the partition index. -/
def sortHittablesSliceByMostSpreadAxis (list : List Primitive) (start end_ : Nat) :
    Except Failure (List Primitive × Nat) :=
  if start ≤ end_ ∧ end_ ≤ list.length then
    let slice := (list.drop start).take (end_ - start)
    let (xSpread, xCenter) := boundingBoxSpread slice (fun h => h.Center.X)
    let (ySpread, yCenter) := boundingBoxSpread slice (fun h => h.Center.Y)
    let (zSpread, zCenter) := boundingBoxSpread slice (fun h => h.Center.Z)
    let sorted :=
      if xSpread ≥ ySpread ∧ xSpread ≥ zSpread then
        sortHittablesByCenter slice xCenter (fun h => h.Center.X)
      else if ySpread ≥ xSpread ∧ ySpread ≥ zSpread then
        sortHittablesByCenter slice yCenter (fun h => h.Center.Y)
      else
        sortHittablesByCenter slice zCenter (fun h => h.Center.Z)
    .ok (list.take start ++ sorted.1 ++ list.drop end_, sorted.2 + start)
  else
    .error .indexOutOfRange

/-- The split index of the general case of `createBvh` (bvh.go, lines 49-54): the partition
index, replaced by the middle of the index range when the partition left one side empty. -/
def createBvh.split (list : List Primitive) (start end_ : Nat) :
    Except Failure (List Primitive × Nat) :=
  match sortHittablesSliceByMostSpreadAxis list start end_ with
  | .error e => .error e
  | .ok (list1, mid) =>
    let numObjects := end_ - start
    if mid = start ∨ mid = end_ then .ok (list1, start + numObjects / 2) else .ok (list1, mid)

/-- `createBvh` (bvh.go, lines 32-62).  Returns the list after the in-place partitions together
with the node.  The first argument bounds the depth of the recursion; `Failure.outOfFuel`
stands for a recursion that does not come back within it. -/
def createBvh : Nat → List Primitive → Nat → Nat → Except Failure (List Primitive × Hittable)
  | 0, _, _, _ => .error .outOfFuel
  | fuel + 1, list, start, end_ =>
    let numObjects := end_ - start
    if numObjects = 1 then
      match list[start]? with
      | some left => .ok (list, .bvh (.prim left) (.prim left) left.BoundingBox)
      | none => .error .indexOutOfRange
    else if numObjects = 2 then
      match list[start]?, list[start + 1]? with
      | some left, some right =>
        .ok (list, .bvh (.prim left) (.prim right)
          (combineAabbs left.BoundingBox right.BoundingBox))
      | _, _ => .error .indexOutOfRange
    else
      match createBvh.split list start end_ with
      | .error e => .error e
      | .ok (list1, mid) =>
        match createBvh fuel list1 start mid with
        | .error e => .error e
        | .ok (list2, left) =>
          match createBvh fuel list2 mid end_ with
          | .error e => .error e
          | .ok (list3, right) =>
            .ok (list3, .bvh left right (combineAabbs left.BoundingBox right.BoundingBox))

/-- `NewBoundingVolumeHierarchy` (bvh.go, lines 23-30): panic on the empty list, otherwise
build over the whole list.  A range of `n` elements needs recursion depth at most `n`. -/
def NewBoundingVolumeHierarchy (list : List Primitive) : Except Failure Hittable :=
  if list.length = 0 then
    .error (.panic "Cannot create a Bvh with empty list of objects")
  else
    match createBvh list.length list 0 list.length with
    | .error e => .error e
    | .ok (_, node) => .ok node

/-! ## The sphere (`pkg/trace/sphere.go`) -/

/-- `struct sphere`: centre and radius. -/
structure sphere where
  center : Vec3
  radius : ℚ
deriving DecidableEq

/-- `sphere.hit` (sphere.go, lines 10-36) over exact arithmetic; `sqrt` stands for `math.Sqrt`.
`Binary64.sphere.hit` is the same function in `float64` arithmetic. -/
def sphere.hit (sqrt : ℚ → ℚ) (s : sphere) (r : ray) (rayTmin rayTmax : ℚ) :
    Option HitRecord :=
  let oc := r.orig.sub s.center
  let a := r.dir.lengthSquared
  let halfB := oc.dot r.dir
  let c := oc.lengthSquared - s.radius * s.radius
  let discriminant := halfB * halfB - a * c
  if discriminant < 0 then
    none
  else
    let sqrtd := sqrt discriminant
    let root := (-halfB - sqrtd) / a
    if root < rayTmin ∨ root > rayTmax then
      let root := (-halfB + sqrtd) / a
      if root < rayTmin ∨ root > rayTmax then
        none
      else
        let p := r.pointAt root
        let normal := (p.sub s.center).divS s.radius
        some (createHitRecord r p normal root)
    else
      let p := r.pointAt root
      let normal := (p.sub s.center).divS s.radius
      some (createHitRecord r p normal root)

/-! ## Predicates on trees -/

/-- The primitives at the leaves of a tree, from left to right. -/
def Hittable.leaves : Hittable → List Primitive
  | .prim p => [p]
  | .bvh left right _ => left.leaves ++ right.leaves

/-- Box `a` contains box `b`: on every axis the range of `b` lies within the range of `a`. -/
def aabb.contains (a b : aabb) : Prop :=
  (a.min.X ≤ b.min.X ∧ a.min.Y ≤ b.min.Y ∧ a.min.Z ≤ b.min.Z) ∧
  (b.max.X ≤ a.max.X ∧ b.max.Y ≤ a.max.Y ∧ b.max.Z ≤ a.max.Z)

/-- Every `bvh` node of the tree caches the union of the boxes of its two children. -/
def Hittable.boxesAreUnions : Hittable → Prop
  | .prim _ => True
  | .bvh left right bBox =>
    bBox = combineAabbs left.BoundingBox right.BoundingBox ∧
      left.boxesAreUnions ∧ right.boxesAreUnions

/-- The box of every `bvh` node of the tree contains the box of every primitive beneath it. -/
def Hittable.boxesContainLeaves : Hittable → Prop
  | .prim _ => True
  | .bvh left right bBox =>
    (∀ p ∈ left.leaves ++ right.leaves, bBox.contains p.BoundingBox) ∧
      left.boxesContainLeaves ∧ right.boxesContainLeaves

/-- The shape of the tree that `createBvh` builds over a slice, by the three cases of the
source: one primitive (used as both children), two primitives, or a split into two non-empty
parts built recursively. -/
inductive BuiltFrom : List Primitive → Hittable → Prop where
  | one (p : Primitive) : BuiltFrom [p] (.bvh (.prim p) (.prim p) p.BoundingBox)
  | two (p q : Primitive) :
    BuiltFrom [p, q] (.bvh (.prim p) (.prim q) (combineAabbs p.BoundingBox q.BoundingBox))
  | split (L R : List Primitive) (left right : Hittable) :
    L ≠ [] → R ≠ [] → BuiltFrom L left → BuiltFrom R right →
    BuiltFrom (L ++ R) (.bvh left right (combineAabbs left.BoundingBox right.BoundingBox))


/-- The box of every `bvh` node of the tree contains the boxes of its two children. -/
def Hittable.boxesContainChildren : Hittable → Prop
  | .prim _ => True
  | .bvh left right bBox =>
    (bBox.contains left.BoundingBox ∧ bBox.contains right.BoundingBox) ∧
      left.boxesContainChildren ∧ right.boxesContainChildren


/-- Some primitive beneath the tree reports a hit over the interval, and the box of every
`bvh` node on the way from the root of the tree down to that primitive passes its test over the
interval. -/
def Hittable.hitReachable (r : ray) (i : Interval) : Hittable → Prop
  | .prim p => (p.Hit r i).isSome = true
  | .bvh left right bBox =>
    bBox.hit r i = true ∧ (left.hitReachable r i ∨ right.hitReachable r i)

/-! ## The sphere as a primitive of the hierarchy -/

/-- A square root on the rationals that is exact on squares of rationals (and rounds numerator
and denominator down otherwise); it stands in for `math.Sqrt` in the concrete scenarios, all of
which take roots of perfect squares only. -/
def sqrtExact (q : ℚ) : ℚ := (Nat.sqrt q.num.toNat : ℚ) / (Nat.sqrt q.den : ℚ)

/-- Modelled from the spec: a sphere seen through the `Hittable` interface.  Its hit test is
`sphere.hit` over the bounds of the interval, its bounding box is the smallest axis-aligned box
around it, its centroid is its centre, and it is not a light. -/
def sphere.toPrimitive (sqrt : ℚ → ℚ) (s : sphere) : Primitive :=
  { Hit := fun r rayLength => s.hit sqrt r rayLength.Min rayLength.Max,
    BoundingBox :=
      { min := ⟨s.center.X - s.radius, s.center.Y - s.radius, s.center.Z - s.radius⟩,
        max := ⟨s.center.X + s.radius, s.center.Y + s.radius, s.center.Z + s.radius⟩ },
    Center := s.center,
    IsLight := false }

/-- The unit sphere around a point, as a primitive. -/
def unitSphereAt (x y z : ℚ) : Primitive :=
  sphere.toPrimitive sqrtExact { center := ⟨x, y, z⟩, radius := 1 }

/-- The result of a construction followed by one query: the `RayLength` of the hit, if any. -/
def queryRayLength (list : List Primitive) (r : ray) (rayLength : Interval) :
    Except Failure (Option ℚ) :=
  match NewBoundingVolumeHierarchy list with
  | .error e => .error e
  | .ok node => .ok ((node.Hit r rayLength).map (fun rec => rec.RayLength))


/-- Equality of construction results is decidable when it is for errors and values. -/
instance instDecidableEqExcept {ε α : Type} [DecidableEq ε] [DecidableEq α] :
    DecidableEq (Except ε α)
  | .ok a, .ok b =>
    if h : a = b then isTrue (by rw [h]) else isFalse (fun e => h (Except.ok.inj e))
  | .error a, .error b =>
    if h : a = b then isTrue (by rw [h]) else isFalse (fun e => h (Except.error.inj e))
  | .ok _, .error _ => isFalse (fun e => Except.noConfusion e)
  | .error _, .ok _ => isFalse (fun e => Except.noConfusion e)


/-! ## The contract of a primitive towards the query -/

/-- The primitive answers a query over `[i.Min, c]`, for an upper bound `c <= i.Max`, with its
nearest hit over `i`: its hit over `i` is still reported when its `RayLength` is at most `c`,
and a hit reported over `[i.Min, c]` has `RayLength` at most `c` and the `RayLength` of the hit
over `i`. -/
def Primitive.nearestWithin (p : Primitive) (r : ray) (i : Interval) : Prop :=
  ∀ c, c ≤ i.Max →
    (∀ rec, p.Hit r i = some rec → rec.RayLength ≤ c →
      ∃ rec2, p.Hit r { Min := i.Min, Max := c } = some rec2 ∧
        rec2.RayLength = rec.RayLength) ∧
    (∀ rec2, p.Hit r { Min := i.Min, Max := c } = some rec2 →
      rec2.RayLength ≤ c ∧ ∃ rec, p.Hit r i = some rec ∧ rec.RayLength = rec2.RayLength)

/-- Whenever the primitive reports over `[i.Min, c]`, for an upper bound `c <= i.Max`, a hit
whose `RayLength` is below `c`, the test of its own bounding box over that interval passes. -/
def Primitive.boxSound (p : Primitive) (r : ray) (i : Interval) : Prop :=
  ∀ c, c ≤ i.Max →
    ∀ rec, p.Hit r { Min := i.Min, Max := c } = some rec → rec.RayLength < c →
      p.BoundingBox.hit r { Min := i.Min, Max := c } = true

/-- The box of every `bvh` node of the tree passes its test over `[i.Min, c]`, for an upper
bound `c <= i.Max`, whenever a primitive beneath the node reports over that interval a hit whose
`RayLength` is below `c`. -/
def Hittable.boxesAdmit (r : ray) (i : Interval) : Hittable → Prop
  | .prim _ => True
  | .bvh left right bBox =>
    (∀ c, c ≤ i.Max →
      (∃ p ∈ left.leaves ++ right.leaves, ∃ rec,
        p.Hit r { Min := i.Min, Max := c } = some rec ∧ rec.RayLength < c) →
      bBox.hit r { Min := i.Min, Max := c } = true) ∧
      left.boxesAdmit r i ∧ right.boxesAdmit r i

/-- The discriminant `halfB^2 - a*c` of `sphere.hit` (sphere.go, lines 12-17). -/
def sphere.discriminant (s : sphere) (r : ray) : ℚ :=
  let oc := r.orig.sub s.center
  let a := r.dir.lengthSquared
  let halfB := oc.dot r.dir
  let c := oc.lengthSquared - s.radius * s.radius
  halfB * halfB - a * c

/-- The root `(-halfB - sqrtd) / a` that `sphere.hit` tries first (sphere.go, line 23). -/
def sphere.smallRoot (sqrt : ℚ → ℚ) (s : sphere) (r : ray) : ℚ :=
  (-((r.orig.sub s.center).dot r.dir) - sqrt (s.discriminant r)) / r.dir.lengthSquared

/-- The root `(-halfB + sqrtd) / a` that `sphere.hit` tries second (sphere.go, line 25). -/
def sphere.largeRoot (sqrt : ℚ → ℚ) (s : sphere) (r : ray) : ℚ :=
  (-((r.orig.sub s.center).dot r.dir) + sqrt (s.discriminant r)) / r.dir.lengthSquared

/-- The record that `sphere.hit` returns for a root (sphere.go, lines 31-33). -/
def sphere.recordAt (s : sphere) (r : ray) (root : ℚ) : HitRecord :=
  createHitRecord r (r.pointAt root) (((r.pointAt root).sub s.center).divS s.radius) root


/-- The interval invariant of a hit record, for a primitive and a ray: whatever interval the
primitive is queried with, the `RayLength` of a reported hit lies within that interval. -/
def Primitive.honoursInterval (p : Primitive) (r : ray) : Prop :=
  ∀ (i : Interval) (rec : HitRecord), p.Hit r i = some rec →
    i.Min ≤ rec.RayLength ∧ rec.RayLength ≤ i.Max


/-! ## The choice of the axis, in the words of the specification -/

/-- The three coordinate axes. -/
inductive Axis where
  | x
  | y
  | z
deriving DecidableEq

/-- The centroid coordinate of a primitive along an axis: the sort key of the partition. -/
def Axis.key : Axis → Primitive → ℚ
  | .x, h => h.Center.X
  | .y, h => h.Center.Y
  | .z, h => h.Center.Z

/-- The spread (max - min) of the centroids of a slice along an axis. -/
def centerSpread (slice : List Primitive) (a : Axis) : ℚ :=
  (boundingBoxSpread slice a.key).1

/-- The midpoint `(min + max) / 2` of the centroids of a slice along an axis. -/
def centerMidpoint (slice : List Primitive) (a : Axis) : ℚ :=
  (boundingBoxSpread slice a.key).2

/-- The axis the specification selects: the first of x, y, z whose spread is at least the
spread of the other two. -/
def mostSpreadAxis (slice : List Primitive) : Axis :=
  if centerSpread slice .x ≥ centerSpread slice .y ∧
      centerSpread slice .x ≥ centerSpread slice .z then .x
  else if centerSpread slice .y ≥ centerSpread slice .x ∧
      centerSpread slice .y ≥ centerSpread slice .z then .y
  else .z


/-! ## Binary64 arithmetic -/

/-- The values of a Go `float64` (IEEE-754 binary64): NaN, the two infinities, and the finite
values, each given by the rational number it denotes.  The two zeros are not told apart; the
sign of a zero shows only in the sign of the infinity obtained by dividing by it, and a zero
divisor is taken to be the positive zero. -/
inductive F64 where
  | nan
  | negInf
  | posInf
  | fin (q : ℚ)
deriving DecidableEq

/-- The power `2^e` of an integer exponent. -/
def F64.pow2 (e : ℤ) : ℚ :=
  if 0 ≤ e then ((2 ^ e.toNat : ℕ) : ℚ) else 1 / ((2 ^ (-e).toNat : ℕ) : ℚ)

/-- The number of halvings that bring `n` below 2: `floor (log2 n)` for `n >= 1`, given at
least that many steps. -/
def F64.log2Nat : Nat → Nat → Nat
  | 0, _ => 0
  | fuel + 1, n => if 2 ≤ n then F64.log2Nat fuel (n / 2) + 1 else 0

/-- The binary exponent of a positive rational `q`: the `e` with `2^e <= q < 2^(e+1)`. -/
def F64.floorLog2 (q : ℚ) : ℤ :=
  let e0 : ℤ := (F64.log2Nat q.num.toNat q.num.toNat : ℤ) - (F64.log2Nat q.den q.den : ℤ)
  if F64.pow2 e0 ≤ q then e0 else e0 - 1

/-- The integer nearest to a rational that is not negative, a tie going to the even one. -/
def F64.roundHalfEven (x : ℚ) : ℤ :=
  let f := ⌊x⌋
  if x - f < 1 / 2 then f
  else if 1 / 2 < x - f then f + 1
  else if f % 2 = 0 then f else f + 1

/-- Rounding of an exact result to binary64, to nearest with ties to even: 53 significant bits
above `2^-1022`, multiples of `2^-1074` below it, and an infinity once the rounded magnitude
reaches `2^1024`. -/
def F64.round (q : ℚ) : F64 :=
  if q = 0 then .fin 0
  else
    let a := |q|
    let e := max (F64.floorLog2 a) (-1022)
    let ulp := F64.pow2 (e - 52)
    let v := (F64.roundHalfEven (a / ulp) : ℚ) * ulp
    if F64.pow2 1024 ≤ v then (if 0 < q then .posInf else .negInf)
    else .fin (if 0 < q then v else -v)

/-- The integer square root, bit by bit from bit `k - 1` downwards. -/
def F64.sqrtNatAux : Nat → Nat → Nat → Nat
  | 0, _, r => r
  | k + 1, n, r =>
    if (r + 2 ^ k) * (r + 2 ^ k) ≤ n then F64.sqrtNatAux k n (r + 2 ^ k)
    else F64.sqrtNatAux k n r

/-- The integer square root `floor (sqrt n)`. -/
def F64.sqrtNat (n : Nat) : Nat := F64.sqrtNatAux (F64.log2Nat n n / 2 + 1) n 0

/-- The square root of a positive rational, rounded to binary64 (to nearest, ties to even). -/
def F64.roundSqrt (q : ℚ) : ℚ :=
  let e := F64.floorLog2 q
  let eh := (e - e % 2) / 2
  let ulp := F64.pow2 (eh - 52)
  let t := q / (ulp * ulp)
  let m0 := F64.sqrtNat ⌊t⌋.toNat
  let h : ℚ := (m0 : ℚ) + 1 / 2
  let m : ℕ :=
    if t < h * h then m0
    else if h * h < t then m0 + 1
    else if m0 % 2 = 0 then m0 else m0 + 1
  (m : ℚ) * ulp

/-- The unary minus of `float64`. -/
def F64.neg : F64 → F64
  | .nan => .nan
  | .negInf => .posInf
  | .posInf => .negInf
  | .fin q => .fin (-q)

/-- The `+` of `float64`: NaN for a NaN operand and for the sum of the two infinities. -/
def F64.add : F64 → F64 → F64
  | .nan, _ => .nan
  | _, .nan => .nan
  | .posInf, .negInf => .nan
  | .negInf, .posInf => .nan
  | .posInf, _ => .posInf
  | _, .posInf => .posInf
  | .negInf, _ => .negInf
  | _, .negInf => .negInf
  | .fin a, .fin b => F64.round (a + b)

/-- The binary `-` of `float64`. -/
def F64.sub (x y : F64) : F64 := x.add y.neg

/-- An infinity times a finite value `q`, or a finite value `q` divided by a zero: NaN when `q`
is zero, otherwise the infinity whose sign is that of `q` when `positive` and the opposite one
when not. -/
def F64.signedInf (positive : Bool) (q : ℚ) : F64 :=
  if q = 0 then .nan
  else if 0 < q then (if positive then .posInf else .negInf)
  else (if positive then .negInf else .posInf)

/-- The `*` of `float64`: NaN for a NaN operand and for zero times an infinity. -/
def F64.mul : F64 → F64 → F64
  | .nan, _ => .nan
  | _, .nan => .nan
  | .fin a, .fin b => F64.round (a * b)
  | .fin a, .posInf => F64.signedInf true a
  | .fin a, .negInf => F64.signedInf false a
  | .posInf, .fin b => F64.signedInf true b
  | .negInf, .fin b => F64.signedInf false b
  | .posInf, .posInf => .posInf
  | .negInf, .negInf => .posInf
  | .posInf, .negInf => .negInf
  | .negInf, .posInf => .negInf

/-- The `/` of `float64`: NaN for a NaN operand, for zero by zero and for an infinity by an
infinity; a non-zero finite value by zero is an infinity. -/
def F64.div : F64 → F64 → F64
  | .nan, _ => .nan
  | _, .nan => .nan
  | .fin a, .fin b => if b = 0 then F64.signedInf true a else F64.round (a / b)
  | .fin _, .posInf => .fin 0
  | .fin _, .negInf => .fin 0
  | .posInf, .fin b => if 0 ≤ b then .posInf else .negInf
  | .negInf, .fin b => if 0 ≤ b then .negInf else .posInf
  | .posInf, .posInf => .nan
  | .posInf, .negInf => .nan
  | .negInf, .posInf => .nan
  | .negInf, .negInf => .nan

/-- `math.Sqrt`: NaN for NaN and for a negative argument, otherwise the rounded root. -/
def F64.sqrt : F64 → F64
  | .nan => .nan
  | .negInf => .nan
  | .posInf => .posInf
  | .fin q => if q < 0 then .nan else if q = 0 then .fin 0 else .fin (F64.roundSqrt q)

/-- The `<` of `float64`: false as soon as an operand is NaN. -/
def F64.lt : F64 → F64 → Bool
  | .nan, _ => false
  | _, .nan => false
  | .fin a, .fin b => decide (a < b)
  | .negInf, .negInf => false
  | .negInf, _ => true
  | _, .negInf => false
  | .posInf, _ => false
  | _, .posInf => true

/-- The `<=` of `float64`: false as soon as an operand is NaN. -/
def F64.le : F64 → F64 → Bool
  | .nan, _ => false
  | _, .nan => false
  | .fin a, .fin b => decide (a ≤ b)
  | .negInf, _ => true
  | _, .posInf => true
  | _, .negInf => false
  | .posInf, _ => false

/-- The `>=` of `float64`. -/
def F64.ge (x y : F64) : Bool := y.le x

/-- `math.Min`: `-Inf` if an operand is `-Inf`, else NaN if an operand is NaN, else the
smaller operand. -/
def F64.min : F64 → F64 → F64
  | .negInf, _ => .negInf
  | _, .negInf => .negInf
  | .nan, _ => .nan
  | _, .nan => .nan
  | .posInf, y => y
  | x, .posInf => x
  | .fin a, .fin b => .fin (if a < b then a else b)

/-- `math.Max`: `+Inf` if an operand is `+Inf`, else NaN if an operand is NaN, else the
larger operand. -/
def F64.max : F64 → F64 → F64
  | .posInf, _ => .posInf
  | _, .posInf => .posInf
  | .nan, _ => .nan
  | _, .nan => .nan
  | .negInf, y => y
  | x, .negInf => x
  | .fin a, .fin b => .fin (if a > b then a else b)

/-! ## The sphere over binary64 (`pkg/trace/sphere.go`) -/

/-- Three `float64` components (`trace.vec3`). -/
structure Binary64.vec3 where
  X : F64
  Y : F64
  Z : F64
deriving DecidableEq

/-- Modelled from the spec: componentwise subtraction of vectors (`vec3.sub`). -/
def Binary64.vec3.sub (a b : Binary64.vec3) : Binary64.vec3 :=
  ⟨a.X.sub b.X, a.Y.sub b.Y, a.Z.sub b.Z⟩

/-- Modelled from the spec: componentwise addition of vectors. -/
def Binary64.vec3.add (a b : Binary64.vec3) : Binary64.vec3 :=
  ⟨a.X.add b.X, a.Y.add b.Y, a.Z.add b.Z⟩

/-- Modelled from the spec: dot product (`vec3.dot`), summed from left to right. -/
def Binary64.vec3.dot (a b : Binary64.vec3) : F64 :=
  ((a.X.mul b.X).add (a.Y.mul b.Y)).add (a.Z.mul b.Z)

/-- Modelled from the spec: squared length (`vec3.lengthSquared`), summed from left to
right. -/
def Binary64.vec3.lengthSquared (a : Binary64.vec3) : F64 :=
  ((a.X.mul a.X).add (a.Y.mul a.Y)).add (a.Z.mul a.Z)

/-- Modelled from the spec: multiplication by a scalar. -/
def Binary64.vec3.mulS (a : Binary64.vec3) (t : F64) : Binary64.vec3 :=
  ⟨a.X.mul t, a.Y.mul t, a.Z.mul t⟩

/-- Modelled from the spec: uniform division by a scalar (`vec3.divS`). -/
def Binary64.vec3.divS (a : Binary64.vec3) (t : F64) : Binary64.vec3 :=
  ⟨a.X.div t, a.Y.div t, a.Z.div t⟩

/-- Origin and direction of a ray (`trace.ray`). -/
structure Binary64.ray where
  orig : Binary64.vec3
  dir : Binary64.vec3
deriving DecidableEq

/-- Modelled from the spec: the point `origin + t * direction` (`ray.at`). -/
def Binary64.ray.pointAt (r : Binary64.ray) (t : F64) : Binary64.vec3 :=
  r.orig.add (r.dir.mulS t)

/-- The payload of a successful hit test (`trace.hitRecord`): hit point, normal and ray
parameter; the material reference is left out. -/
structure Binary64.hitRecord where
  HitPoint : Binary64.vec3
  Normal : Binary64.vec3
  RayLength : F64
deriving DecidableEq

/-- Modelled from the spec: `createHitRecord(r, p, normal, root)` fills the record with the hit
point, the outward normal and the chosen root as `RayLength`. -/
def Binary64.createHitRecord (_r : Binary64.ray) (p normal : Binary64.vec3) (root : F64) :
    Binary64.hitRecord :=
  { HitPoint := p, Normal := normal, RayLength := root }

/-- `struct sphere`: centre and radius. -/
structure Binary64.sphere where
  center : Binary64.vec3
  radius : F64
deriving DecidableEq

/-- `sphere.hit` (sphere.go, lines 10-36) in `float64` arithmetic.  The comparison
`root > rayTmax` of the source reads `rayTmax < root`. -/
def Binary64.sphere.hit (s : Binary64.sphere) (r : Binary64.ray) (rayTmin rayTmax : F64) :
    Option Binary64.hitRecord :=
  let oc := r.orig.sub s.center
  let a := r.dir.lengthSquared
  let halfB := oc.dot r.dir
  let c := oc.lengthSquared.sub (s.radius.mul s.radius)
  let discriminant := (halfB.mul halfB).sub (a.mul c)
  if discriminant.lt (.fin 0) then
    none
  else
    let sqrtd := discriminant.sqrt
    let root := (halfB.neg.sub sqrtd).div a
    if root.lt rayTmin || rayTmax.lt root then
      let root := (halfB.neg.add sqrtd).div a
      if root.lt rayTmin || rayTmax.lt root then
        none
      else
        let p := r.pointAt root
        let normal := (p.sub s.center).divS s.radius
        some (Binary64.createHitRecord r p normal root)
    else
      let p := r.pointAt root
      let normal := (p.sub s.center).divS s.radius
      some (Binary64.createHitRecord r p normal root)

/-- The discriminant `halfB^2 - a*c` of `sphere.hit` (sphere.go, lines 12-17). -/
def Binary64.sphere.discriminant (s : Binary64.sphere) (r : Binary64.ray) : F64 :=
  let oc := r.orig.sub s.center
  let a := r.dir.lengthSquared
  let halfB := oc.dot r.dir
  let c := oc.lengthSquared.sub (s.radius.mul s.radius)
  (halfB.mul halfB).sub (a.mul c)

/-- The root `(-halfB - sqrtd) / a` that `sphere.hit` tries first (sphere.go, line 23). -/
def Binary64.sphere.smallRoot (s : Binary64.sphere) (r : Binary64.ray) : F64 :=
  ((((r.orig.sub s.center).dot r.dir).neg).sub (s.discriminant r).sqrt).div r.dir.lengthSquared

/-- The root `(-halfB + sqrtd) / a` that `sphere.hit` tries second (sphere.go, line 25). -/
def Binary64.sphere.largeRoot (s : Binary64.sphere) (r : Binary64.ray) : F64 :=
  ((((r.orig.sub s.center).dot r.dir).neg).add (s.discriminant r).sqrt).div r.dir.lengthSquared

/-- The record that `sphere.hit` returns for a root (sphere.go, lines 31-33). -/
def Binary64.sphere.recordAt (s : Binary64.sphere) (r : Binary64.ray) (root : F64) :
    Binary64.hitRecord :=
  Binary64.createHitRecord r (r.pointAt root) (((r.pointAt root).sub s.center).divS s.radius)
    root

/-- `boundingBoxSpread` (bvh.go, lines 80-88) in `float64` arithmetic: the running minimum and
maximum start at `+Inf` and `-Inf` and are updated with `math.Min` and `math.Max`; the result is
`max - min` and `(min + max) * .5`. -/
def Binary64.boundingBoxSpread (list : List Primitive) (centerFunc : Primitive → F64) :
    F64 × F64 :=
  let acc := list.foldl
    (fun (acc : F64 × F64) h => (F64.min acc.1 (centerFunc h), F64.max acc.2 (centerFunc h)))
    (F64.posInf, F64.negInf)
  (acc.2.sub acc.1, (acc.1.add acc.2).mul (.fin (1 / 2)))

/-- The loop of `sortHittablesByCenter` (bvh.go, lines 95-105) with the `float64` comparison
`boundingCenterFunc(list[i]) < center`.  The Go index `j` is kept as `jSucc = j + 1`; the first
argument bounds the number of iterations. -/
def Binary64.sortHittablesByCenter.loop (center : F64) (boundingCenterFunc : Primitive → F64) :
    Nat → List Primitive → Nat → Nat → List Primitive × Nat
  | 0, list, i, _ => (list, i)
  | fuel + 1, list, i, jSucc =>
    if i < jSucc then
      match list[i]?, list[jSucc - 1]? with
      | some tmpI, some tmpJ =>
        if (boundingCenterFunc tmpI).lt center then
          Binary64.sortHittablesByCenter.loop center boundingCenterFunc fuel list (i + 1) jSucc
        else
          Binary64.sortHittablesByCenter.loop center boundingCenterFunc fuel
            ((list.set i tmpJ).set (jSucc - 1) tmpI) i (jSucc - 1)
      | _, _ => (list, i)
    else
      (list, i)

/-- `sortHittablesByCenter` (bvh.go, lines 90-108) in `float64` arithmetic: the two-pointer
partition of a slice around `center`; returns the permuted slice and the index `i`. -/
def Binary64.sortHittablesByCenter (list : List Primitive) (center : F64)
    (boundingCenterFunc : Primitive → F64) : List Primitive × Nat :=
  Binary64.sortHittablesByCenter.loop center boundingCenterFunc list.length list 0 list.length

/-- `sortHittablesSliceByMostSpreadAxis` (bvh.go, lines 64-78) in `float64` arithmetic.  The
centroid coordinates of the primitives are finite values; spreads and midpoints are computed and
compared as `float64`. -/
def Binary64.sortHittablesSliceByMostSpreadAxis (list : List Primitive) (start end_ : Nat) :
    Except Failure (List Primitive × Nat) :=
  if start ≤ end_ ∧ end_ ≤ list.length then
    let slice := (list.drop start).take (end_ - start)
    let (xSpread, xCenter) := Binary64.boundingBoxSpread slice (fun h => F64.fin h.Center.X)
    let (ySpread, yCenter) := Binary64.boundingBoxSpread slice (fun h => F64.fin h.Center.Y)
    let (zSpread, zCenter) := Binary64.boundingBoxSpread slice (fun h => F64.fin h.Center.Z)
    let sorted :=
      if xSpread.ge ySpread && xSpread.ge zSpread then
        Binary64.sortHittablesByCenter slice xCenter (fun h => F64.fin h.Center.X)
      else if ySpread.ge xSpread && ySpread.ge zSpread then
        Binary64.sortHittablesByCenter slice yCenter (fun h => F64.fin h.Center.Y)
      else
        Binary64.sortHittablesByCenter slice zCenter (fun h => F64.fin h.Center.Z)
    .ok (list.take start ++ sorted.1 ++ list.drop end_, sorted.2 + start)
  else
    .error .indexOutOfRange

/-- The split index of the general case of `createBvh` (bvh.go, lines 49-54), with the
partition in `float64` arithmetic. -/
def Binary64.createBvh.split (list : List Primitive) (start end_ : Nat) :
    Except Failure (List Primitive × Nat) :=
  match Binary64.sortHittablesSliceByMostSpreadAxis list start end_ with
  | .error e => .error e
  | .ok (list1, mid) =>
    let numObjects := end_ - start
    if mid = start ∨ mid = end_ then .ok (list1, start + numObjects / 2) else .ok (list1, mid)

/-- `createBvh` (bvh.go, lines 32-62), with the partition in `float64` arithmetic.  The first
argument bounds the depth of the recursion. -/
def Binary64.createBvh :
    Nat → List Primitive → Nat → Nat → Except Failure (List Primitive × Hittable)
  | 0, _, _, _ => .error .outOfFuel
  | fuel + 1, list, start, end_ =>
    let numObjects := end_ - start
    if numObjects = 1 then
      match list[start]? with
      | some left => .ok (list, .bvh (.prim left) (.prim left) left.BoundingBox)
      | none => .error .indexOutOfRange
    else if numObjects = 2 then
      match list[start]?, list[start + 1]? with
      | some left, some right =>
        .ok (list, .bvh (.prim left) (.prim right)
          (combineAabbs left.BoundingBox right.BoundingBox))
      | _, _ => .error .indexOutOfRange
    else
      match Binary64.createBvh.split list start end_ with
      | .error e => .error e
      | .ok (list1, mid) =>
        match Binary64.createBvh fuel list1 start mid with
        | .error e => .error e
        | .ok (list2, left) =>
          match Binary64.createBvh fuel list2 mid end_ with
          | .error e => .error e
          | .ok (list3, right) =>
            .ok (list3, .bvh left right (combineAabbs left.BoundingBox right.BoundingBox))

/-- `NewBoundingVolumeHierarchy` (bvh.go, lines 23-30), with the partition in `float64`
arithmetic. -/
def Binary64.NewBoundingVolumeHierarchy (list : List Primitive) : Except Failure Hittable :=
  if list.length = 0 then
    .error (.panic "Cannot create a Bvh with empty list of objects")
  else
    match Binary64.createBvh list.length list 0 list.length with
    | .error e => .error e
    | .ok (_, node) => .ok node

/-- The `float64` sort key of a primitive along an axis. -/
def Binary64.key (a : Axis) (h : Primitive) : F64 := F64.fin (a.key h)

/-- The spread `max - min` of the centroids of a slice along an axis, as `boundingBoxSpread`
computes it in `float64`. -/
def Binary64.centerSpread (slice : List Primitive) (a : Axis) : F64 :=
  (Binary64.boundingBoxSpread slice (Binary64.key a)).1

/-- The midpoint `(min + max) * .5` of the centroids of a slice along an axis, as
`boundingBoxSpread` computes it in `float64`. -/
def Binary64.centerMidpoint (slice : List Primitive) (a : Axis) : F64 :=
  (Binary64.boundingBoxSpread slice (Binary64.key a)).2

/-- The axis the specification selects, on the computed spreads: the first of x, y, z whose
spread is at least the spread of the other two. -/
def Binary64.mostSpreadAxis (slice : List Primitive) : Axis :=
  if (Binary64.centerSpread slice .x).ge (Binary64.centerSpread slice .y) = true ∧
      (Binary64.centerSpread slice .x).ge (Binary64.centerSpread slice .z) = true then .x
  else if (Binary64.centerSpread slice .y).ge (Binary64.centerSpread slice .x) = true ∧
      (Binary64.centerSpread slice .y).ge (Binary64.centerSpread slice .z) = true then .y
  else .z

/-- Writing the head value into position `j` while the old value of `j` becomes the head is a
permutation. -/
theorem set_cons_perm {α : Type} (x b : α) :
    ∀ (xs : List α) (j : Nat), xs[j]? = some b → (b :: xs.set j x).Perm (x :: xs)
  | [], j, h => by simp at h
  | y :: ys, 0, h => by
    simp at h
    subst h
    simpa using List.Perm.swap x y ys
  | y :: ys, j + 1, h => by
    simp at h
    have ih := set_cons_perm x b ys j h
    simp only [List.set_cons_succ]
    exact (List.Perm.swap y b _).trans ((ih.cons y).trans (List.Perm.swap x y ys))

/-- Exchanging the elements at two positions of a list is a permutation. -/
theorem set_set_perm_of_getElem? {α : Type} :
    ∀ (l : List α) (i j : Nat) (a b : α), l[i]? = some a → l[j]? = some b →
      ((l.set i b).set j a).Perm l
  | [], i, _, _, _, h, _ => by simp at h
  | x :: xs, 0, 0, a, b, hi, hj => by
    simp at hi hj
    subst hi
    simp
  | x :: xs, 0, j + 1, a, b, hi, hj => by
    simp at hi hj
    subst hi
    simpa using set_cons_perm x b xs j hj
  | x :: xs, i + 1, 0, a, b, hi, hj => by
    simp at hi hj
    subst hj
    simpa using set_cons_perm x a xs i hi
  | x :: xs, i + 1, j + 1, a, b, hi, hj => by
    simp at hi hj
    simpa using set_set_perm_of_getElem? xs i j a b hi hj

theorem sortHittablesByCenter.loop_perm (center : ℚ) (f : Primitive → ℚ) :
    ∀ (fuel : Nat) (list : List Primitive) (i jSucc : Nat),
      (sortHittablesByCenter.loop center f fuel list i jSucc).1.Perm list
  | 0, list, i, jSucc => by simp [sortHittablesByCenter.loop]
  | fuel + 1, list, i, jSucc => by
    unfold sortHittablesByCenter.loop
    split_ifs with h
    · split
      · rename_i tmpI tmpJ hI hJ
        split_ifs with hlt
        · exact sortHittablesByCenter.loop_perm center f fuel list (i + 1) jSucc
        · exact (sortHittablesByCenter.loop_perm center f fuel _ i (jSucc - 1)).trans
            (set_set_perm_of_getElem? list i (jSucc - 1) tmpI tmpJ hI hJ)
      · exact List.Perm.refl _
    · exact List.Perm.refl _

theorem sortHittablesByCenter.loop_bounds (center : ℚ) (f : Primitive → ℚ) :
    ∀ (fuel : Nat) (list : List Primitive) (i jSucc : Nat), i ≤ jSucc →
      i ≤ (sortHittablesByCenter.loop center f fuel list i jSucc).2 ∧
      (sortHittablesByCenter.loop center f fuel list i jSucc).2 ≤ jSucc
  | 0, list, i, jSucc, h => by simpa [sortHittablesByCenter.loop] using h
  | fuel + 1, list, i, jSucc, h => by
    unfold sortHittablesByCenter.loop
    split_ifs with hlt
    · split
      · rename_i tmpI tmpJ hI hJ
        split_ifs with hk
        · have := sortHittablesByCenter.loop_bounds center f fuel list (i + 1) jSucc (by omega)
          omega
        · have := sortHittablesByCenter.loop_bounds center f fuel
            ((list.set i tmpJ).set (jSucc - 1) tmpI) i (jSucc - 1) (by omega)
          omega
      · simpa using h
    · simpa using h

theorem sortHittablesByCenter.loop_fuel (center : ℚ) (f : Primitive → ℚ) (k : Nat) :
    ∀ (fuel : Nat) (list : List Primitive) (i jSucc : Nat), jSucc ≤ i + fuel →
      sortHittablesByCenter.loop center f (fuel + k) list i jSucc =
        sortHittablesByCenter.loop center f fuel list i jSucc
  | 0, list, i, jSucc, h => by
    cases k with
    | zero => rfl
    | succ k =>
      have hn : ¬ i < jSucc := by omega
      simp [sortHittablesByCenter.loop, hn]
  | fuel + 1, list, i, jSucc, h => by
    have e : fuel + 1 + k = (fuel + k) + 1 := by omega
    rw [e]
    unfold sortHittablesByCenter.loop
    split_ifs with hlt
    · split
      · rename_i tmpI tmpJ hI hJ
        split_ifs with hk
        · exact sortHittablesByCenter.loop_fuel center f k fuel list (i + 1) jSucc (by omega)
        · exact sortHittablesByCenter.loop_fuel center f k fuel _ i (jSucc - 1) (by omega)
      · rfl
    · rfl

theorem sortHittablesByCenter.loop_of_not_below (center : ℚ) (f : Primitive → ℚ) :
    ∀ (fuel : Nat) (list : List Primitive) (i jSucc : Nat),
      (∀ p ∈ list, ¬ f p < center) →
      (sortHittablesByCenter.loop center f fuel list i jSucc).2 = i
  | 0, list, i, jSucc, _ => by simp [sortHittablesByCenter.loop]
  | fuel + 1, list, i, jSucc, h => by
    unfold sortHittablesByCenter.loop
    split_ifs with hlt
    · split
      · rename_i tmpI tmpJ hI hJ
        have hmem : tmpI ∈ list := List.getElem?_mem hI
        rw [if_neg (h tmpI hmem)]
        apply sortHittablesByCenter.loop_of_not_below center f fuel
        intro p hp
        exact h p ((set_set_perm_of_getElem? list i (jSucc - 1) tmpI tmpJ hI hJ).mem_iff.mp hp)
      · rfl
    · rfl

/-- The iteration bound of `sortHittablesByCenter` is never the reason the loop ends: a larger
bound gives the same result. -/
theorem sortHittablesByCenter_fuel (list : List Primitive) (center : ℚ) (f : Primitive → ℚ)
    (k : Nat) :
    sortHittablesByCenter.loop center f (list.length + k) list 0 list.length =
      sortHittablesByCenter list center f :=
  sortHittablesByCenter.loop_fuel center f k list.length list 0 list.length (by omega)

theorem sortHittablesByCenter_perm (list : List Primitive) (center : ℚ) (f : Primitive → ℚ) :
    (sortHittablesByCenter list center f).1.Perm list :=
  sortHittablesByCenter.loop_perm center f _ _ _ _

theorem sortHittablesByCenter_le (list : List Primitive) (center : ℚ) (f : Primitive → ℚ) :
    (sortHittablesByCenter list center f).2 ≤ list.length :=
  (sortHittablesByCenter.loop_bounds center f _ _ _ _ (Nat.zero_le _)).2

theorem sortHittablesByCenter_of_not_below (list : List Primitive) (center : ℚ)
    (f : Primitive → ℚ) (h : ∀ p ∈ list, ¬ f p < center) :
    (sortHittablesByCenter list center f).2 = 0 :=
  sortHittablesByCenter.loop_of_not_below center f _ _ _ _ h

/-! ## Lemmas on the choice of the axis -/

theorem boundingBoxSpread_foldl_const (f : Primitive → ℚ) (k : ℚ) :
    ∀ (list : List Primitive), (∀ p ∈ list, f p = k) →
      list.foldl
        (fun (acc : Option (ℚ × ℚ)) h =>
          match acc with
          | none => some (f h, f h)
          | some (min, max) => some (Min.min min (f h), Max.max max (f h)))
        (some (k, k)) = some (k, k)
  | [], _ => rfl
  | h :: t, hk => by
    have hh : f h = k := hk h (List.mem_cons_self _ _)
    simp only [List.foldl_cons, hh, min_self, max_self]
    exact boundingBoxSpread_foldl_const f k t (fun p hp => hk p (List.mem_cons_of_mem _ hp))

theorem boundingBoxSpread_const (list : List Primitive) (f : Primitive → ℚ) (k : ℚ)
    (hne : list ≠ []) (hk : ∀ p ∈ list, f p = k) : boundingBoxSpread list f = (0, k) := by
  cases list with
  | nil => exact absurd rfl hne
  | cons h t =>
    have hh : f h = k := hk h (List.mem_cons_self _ _)
    unfold boundingBoxSpread
    simp only [List.foldl_cons, hh]
    rw [boundingBoxSpread_foldl_const f k t (fun p hp => hk p (List.mem_cons_of_mem _ hp))]
    simp
    ring

theorem sortHittablesSliceByMostSpreadAxis_append (A S B : List Primitive) :
    ∃ (center : ℚ) (f : Primitive → ℚ),
      sortHittablesSliceByMostSpreadAxis (A ++ S ++ B) A.length (A.length + S.length) =
        .ok (A ++ (sortHittablesByCenter S center f).1 ++ B,
          (sortHittablesByCenter S center f).2 + A.length) := by
  have hcond : A.length ≤ A.length + S.length ∧
      A.length + S.length ≤ (A ++ S ++ B).length := by
    simp [List.length_append]
  have hslice : ((A ++ S ++ B).drop A.length).take (A.length + S.length - A.length) = S := by
    simp [List.append_assoc]
  have htake : (A ++ S ++ B).take A.length = A := by
    simp [List.append_assoc]
  have hdrop : (A ++ S ++ B).drop (A.length + S.length) = B := by
    rw [← List.length_append, List.drop_left]
  unfold sortHittablesSliceByMostSpreadAxis
  rw [if_pos hcond, hslice, htake, hdrop]
  dsimp only
  split_ifs
  · exact ⟨_, _, rfl⟩
  · exact ⟨_, _, rfl⟩
  · exact ⟨_, _, rfl⟩

/-! ## Lemmas on `createBvh` -/

theorem getElem?_append_mid (A S B : List Primitive) (k : Nat) (hk : k < S.length) :
    (A ++ S ++ B)[A.length + k]? = S[k]? := by
  rw [List.append_assoc, List.getElem?_append_right (by omega)]
  rw [show A.length + k - A.length = k by omega]
  exact List.getElem?_append_left hk

theorem createBvh.split_append (A S B : List Primitive) (hS : 2 ≤ S.length) :
    ∃ (S1 : List Primitive) (m : Nat),
      createBvh.split (A ++ S ++ B) A.length (A.length + S.length) =
        .ok (A ++ S1 ++ B, A.length + m) ∧
      S1.Perm S ∧ 0 < m ∧ m < S.length := by
  obtain ⟨center, f, hsort⟩ := sortHittablesSliceByMostSpreadAxis_append A S B
  have hle := sortHittablesByCenter_le S center f
  have hperm := sortHittablesByCenter_perm S center f
  unfold createBvh.split
  rw [hsort]
  dsimp only
  split_ifs with h
  · refine ⟨_, S.length / 2, ?_, hperm, ?_, ?_⟩
    · simp
    · omega
    · omega
  · refine ⟨_, (sortHittablesByCenter S center f).2, ?_, hperm, ?_, ?_⟩
    · simp [Nat.add_comm]
    · omega
    · omega

theorem createBvh_general_step (fuel : Nat)
    (ih : ∀ (A S B : List Primitive), S ≠ [] → S.length ≤ fuel →
      ∃ (S2 : List Primitive) (node : Hittable),
        createBvh fuel (A ++ S ++ B) A.length (A.length + S.length) = .ok (A ++ S2 ++ B, node) ∧
        S2.Perm S ∧ BuiltFrom S2 node)
    (A S B S1 : List Primitive) (m : Nat) (h3 : 3 ≤ S.length) (hfuel : S.length ≤ fuel + 1)
    (hsplit : createBvh.split (A ++ S ++ B) A.length (A.length + S.length) =
      .ok (A ++ S1 ++ B, A.length + m))
    (hperm1 : S1.Perm S) (hm0 : 0 < m) (hm : m < S.length) :
    ∃ (L2 R2 : List Primitive) (left right : Hittable),
      createBvh (fuel + 1) (A ++ S ++ B) A.length (A.length + S.length) =
        .ok (A ++ (L2 ++ R2) ++ B,
          .bvh left right (combineAabbs left.BoundingBox right.BoundingBox)) ∧
      L2.Perm (S1.take m) ∧ R2.Perm (S1.drop m) ∧ BuiltFrom L2 left ∧ BuiltFrom R2 right := by
  unfold createBvh
  have hnum : A.length + S.length - A.length = S.length := by omega
  simp only [hnum]
  rw [if_neg (by omega), if_neg (by omega), hsplit]
  dsimp only
  have hlen1 : S1.length = S.length := hperm1.length_eq
  have hL : (S1.take m).length = m := by
    rw [List.length_take]; omega
  have hR : (S1.drop m).length = S.length - m := by
    rw [List.length_drop]; omega
  have hLne : S1.take m ≠ [] := by
    intro h; rw [h] at hL; simp at hL; omega
  have hRne : S1.drop m ≠ [] := by
    intro h; rw [h] at hR; simp at hR; omega
  obtain ⟨L2, left, hleft, hpL, hbL⟩ := ih A (S1.take m) (S1.drop m ++ B) hLne (by omega)
  have e1 : A ++ S1 ++ B = A ++ S1.take m ++ (S1.drop m ++ B) := by
    simp only [List.append_assoc]
    rw [← List.append_assoc (List.take m S1) (List.drop m S1) B, List.take_append_drop]
  rw [hL] at hleft
  rw [e1, hleft]
  dsimp only
  have hL2 : L2.length = m := by rw [hpL.length_eq, hL]
  obtain ⟨R2, right, hright, hpR, hbR⟩ := ih (A ++ L2) (S1.drop m) B hRne (by omega)
  have e2 : A ++ L2 ++ (S1.drop m ++ B) = A ++ L2 ++ S1.drop m ++ B := by
    simp [List.append_assoc]
  have e3 : (A ++ L2).length + (S1.drop m).length = A.length + S.length := by
    rw [List.length_append, hL2, hR]; omega
  have e4 : (A ++ L2).length = A.length + m := by
    rw [List.length_append, hL2]
  rw [e3, e4] at hright
  rw [e2, hright]
  dsimp only
  refine ⟨L2, R2, left, right, ?_, hpL, hpR, hbL, hbR⟩
  simp [List.append_assoc]

theorem createBvh_append :
    ∀ (fuel : Nat) (A S B : List Primitive), S ≠ [] → S.length ≤ fuel →
      ∃ (S2 : List Primitive) (node : Hittable),
        createBvh fuel (A ++ S ++ B) A.length (A.length + S.length) = .ok (A ++ S2 ++ B, node) ∧
        S2.Perm S ∧ BuiltFrom S2 node
  | 0, A, S, B, hne, hfuel => by
    have : S.length = 0 := by omega
    exact absurd (List.length_eq_zero.mp this) hne
  | fuel + 1, A, S, B, hne, hfuel => by
    by_cases h1 : S.length = 1
    · unfold createBvh
      have hnum : A.length + S.length - A.length = S.length := by omega
      simp only [hnum]
      obtain ⟨p, rfl⟩ := List.length_eq_one.mp h1
      have g0 : (A ++ [p] ++ B)[A.length]? = some p :=
        getElem?_append_mid A [p] B 0 (by simp)
      refine ⟨[p], _, ?_, List.Perm.refl _, BuiltFrom.one p⟩
      rw [if_pos h1, g0]
    · by_cases h2 : S.length = 2
      · unfold createBvh
        have hnum : A.length + S.length - A.length = S.length := by omega
        simp only [hnum]
        obtain ⟨p, q, rfl⟩ := List.length_eq_two.mp h2
        have g0 : (A ++ [p, q] ++ B)[A.length]? = some p :=
          getElem?_append_mid A [p, q] B 0 (by simp)
        have g1 : (A ++ [p, q] ++ B)[A.length + 1]? = some q :=
          getElem?_append_mid A [p, q] B 1 (by simp)
        refine ⟨[p, q], _, ?_, List.Perm.refl _, BuiltFrom.two p q⟩
        rw [if_neg h1, if_pos h2, g0, g1]
      · have hpos : 0 < S.length := List.length_pos.mpr hne
        obtain ⟨S1, m, hsplit, hperm1, hm0, hm⟩ := createBvh.split_append A S B (by omega)
        obtain ⟨L2, R2, left, right, hrun, hpL, hpR, hbL, hbR⟩ :=
          createBvh_general_step fuel (createBvh_append fuel) A S B S1 m (by omega) hfuel
            hsplit hperm1 hm0 hm
        have hlen1 : S1.length = S.length := hperm1.length_eq
        have hL2ne : L2 ≠ [] := by
          intro h
          have := hpL.length_eq
          rw [h, List.length_take] at this; simp at this; omega
        have hR2ne : R2 ≠ [] := by
          intro h
          have := hpR.length_eq
          rw [h, List.length_drop] at this; simp at this; omega
        have hperm2 : (L2 ++ R2).Perm S := by
          have := hpL.append hpR
          rw [List.take_append_drop] at this
          exact this.trans hperm1
        exact ⟨L2 ++ R2, _, hrun, hperm2, BuiltFrom.split L2 R2 left right hL2ne hR2ne hbL hbR⟩

theorem range_decomposition (list : List Primitive) (start end_ : Nat)
    (h1 : start ≤ end_) (h2 : end_ ≤ list.length) :
    list = list.take start ++ (list.drop start).take (end_ - start) ++ list.drop end_ ∧
    (list.take start).length = start ∧
    ((list.drop start).take (end_ - start)).length = end_ - start := by
  refine ⟨?_, ?_, ?_⟩
  · have e : list.drop end_ = (list.drop start).drop (end_ - start) := by
      rw [List.drop_drop]; congr 1; omega
    rw [e, List.append_assoc, List.take_append_drop, List.take_append_drop]
  · rw [List.length_take]; omega
  · rw [List.length_take, List.length_drop]; omega

theorem createBvh_range (fuel : Nat) (list : List Primitive) (start end_ : Nat)
    (h1 : start < end_) (h2 : end_ ≤ list.length) (hfuel : end_ - start ≤ fuel) :
    ∃ (S2 : List Primitive) (node : Hittable),
      createBvh fuel list start end_ = .ok (list.take start ++ S2 ++ list.drop end_, node) ∧
      S2.Perm ((list.drop start).take (end_ - start)) ∧ BuiltFrom S2 node := by
  obtain ⟨hdec, hA, hS⟩ := range_decomposition list start end_ (by omega) h2
  have hne : (list.drop start).take (end_ - start) ≠ [] := by
    intro h; rw [h] at hS; simp at hS; omega
  obtain ⟨S2, node, hrun, hperm, hbuilt⟩ :=
    createBvh_append fuel (list.take start) ((list.drop start).take (end_ - start))
      (list.drop end_) hne (by omega)
  rw [hA, hS, ← hdec, show start + (end_ - start) = end_ by omega] at hrun
  exact ⟨S2, node, hrun, hperm, hbuilt⟩

theorem createBvh_fuel_succ :
    ∀ (fuel : Nat) (list : List Primitive) (start end_ : Nat)
      (res : List Primitive × Hittable),
      createBvh fuel list start end_ = .ok res → createBvh (fuel + 1) list start end_ = .ok res
  | 0, _, _, _, _, h => by simp [createBvh] at h
  | fuel + 1, list, start, end_, res, h => by
    unfold createBvh at h ⊢
    dsimp only at h ⊢
    split_ifs at h ⊢ with c1 c2
    · exact h
    · exact h
    · cases hs : createBvh.split list start end_ with
      | error e => rw [hs] at h; simp at h
      | ok s =>
        obtain ⟨list1, mid⟩ := s
        rw [hs] at h
        dsimp only at h ⊢
        cases hl : createBvh fuel list1 start mid with
        | error e => rw [hl] at h; simp at h
        | ok lres =>
          obtain ⟨list2, left⟩ := lres
          rw [hl] at h
          rw [createBvh_fuel_succ fuel list1 start mid _ hl]
          dsimp only at h ⊢
          cases hr : createBvh fuel list2 mid end_ with
          | error e => rw [hr] at h; simp at h
          | ok rres =>
            obtain ⟨list3, right⟩ := rres
            rw [hr] at h
            rw [createBvh_fuel_succ fuel list2 mid end_ _ hr]
            exact h

theorem createBvh_fuel_mono (fuel k : Nat) (list : List Primitive) (start end_ : Nat)
    (res : List Primitive × Hittable) (h : createBvh fuel list start end_ = .ok res) :
    createBvh (fuel + k) list start end_ = .ok res := by
  induction k with
  | zero => exact h
  | succ k ih => exact createBvh_fuel_succ (fuel + k) list start end_ res ih

/-! ## Lemmas on boxes -/

theorem combineAabbs_self (b : aabb) : combineAabbs b b = b := by
  simp [combineAabbs]

theorem aabb.contains_refl (b : aabb) : b.contains b := by
  simp [aabb.contains]

theorem aabb.contains_trans {a b c : aabb} (h1 : a.contains b) (h2 : b.contains c) :
    a.contains c := by
  obtain ⟨⟨a1, a2, a3⟩, a4, a5, a6⟩ := h1
  obtain ⟨⟨b1, b2, b3⟩, b4, b5, b6⟩ := h2
  exact ⟨⟨a1.trans b1, a2.trans b2, a3.trans b3⟩, b4.trans a4, b5.trans a5, b6.trans a6⟩

theorem combineAabbs_contains_left (a b : aabb) : (combineAabbs a b).contains a := by
  simp [combineAabbs, aabb.contains]

theorem combineAabbs_contains_right (a b : aabb) : (combineAabbs a b).contains b := by
  simp [combineAabbs, aabb.contains]

theorem BuiltFrom.boxesAreUnions {S : List Primitive} {t : Hittable} (h : BuiltFrom S t) :
    t.boxesAreUnions := by
  induction h with
  | one p => simp [Hittable.boxesAreUnions, Hittable.BoundingBox, combineAabbs_self]
  | two p q => simp [Hittable.boxesAreUnions, Hittable.BoundingBox]
  | split L R left right _ _ _ _ ihl ihr => exact ⟨rfl, ihl, ihr⟩

theorem BuiltFrom.mem_leaves {S : List Primitive} {t : Hittable} (h : BuiltFrom S t) :
    ∀ p, p ∈ t.leaves ↔ p ∈ S := by
  induction h with
  | one p => intro q; simp [Hittable.leaves]
  | two p q => intro x; simp [Hittable.leaves]
  | split L R left right _ _ _ _ ihl ihr =>
    intro x; simp [Hittable.leaves, ihl x, ihr x]

theorem BuiltFrom.is_bvh {S : List Primitive} {t : Hittable} (h : BuiltFrom S t) :
    ∃ left right bBox, t = .bvh left right bBox := by
  cases h with
  | one p => exact ⟨_, _, _, rfl⟩
  | two p q => exact ⟨_, _, _, rfl⟩
  | split L R left right _ _ _ _ => exact ⟨_, _, _, rfl⟩

theorem Hittable.boxesAreUnions.contains_leaf :
    ∀ (t : Hittable), t.boxesAreUnions → ∀ p ∈ t.leaves, t.BoundingBox.contains p.BoundingBox
  | .prim q, _, p, hp => by
    simp [Hittable.leaves] at hp
    subst hp
    exact aabb.contains_refl _
  | .bvh left right bBox, h, p, hp => by
    obtain ⟨hb, hl, hr⟩ := h
    simp only [Hittable.leaves, List.mem_append] at hp
    simp only [Hittable.BoundingBox]
    rw [hb]
    rcases hp with hp | hp
    · exact aabb.contains_trans (combineAabbs_contains_left _ _)
        (Hittable.boxesAreUnions.contains_leaf left hl p hp)
    · exact aabb.contains_trans (combineAabbs_contains_right _ _)
        (Hittable.boxesAreUnions.contains_leaf right hr p hp)

theorem Hittable.boxesAreUnions.containLeaves :
    ∀ (t : Hittable), t.boxesAreUnions → t.boxesContainLeaves
  | .prim _, _ => trivial
  | .bvh left right bBox, h => by
    refine ⟨?_, Hittable.boxesAreUnions.containLeaves left h.2.1,
      Hittable.boxesAreUnions.containLeaves right h.2.2⟩
    intro p hp
    exact Hittable.boxesAreUnions.contains_leaf (.bvh left right bBox) h p hp

theorem Hittable.boxesAreUnions.containChildren :
    ∀ (t : Hittable), t.boxesAreUnions → t.boxesContainChildren
  | .prim _, _ => trivial
  | .bvh left right bBox, h => by
    refine ⟨?_, Hittable.boxesAreUnions.containChildren left h.2.1,
      Hittable.boxesAreUnions.containChildren right h.2.2⟩
    rw [h.1]
    exact ⟨combineAabbs_contains_left _ _, combineAabbs_contains_right _ _⟩

theorem NewBoundingVolumeHierarchy_built (list : List Primitive) (hne : list ≠ []) :
    ∃ (S2 : List Primitive) (node : Hittable),
      NewBoundingVolumeHierarchy list = .ok node ∧ S2.Perm list ∧ BuiltFrom S2 node := by
  have hpos : 0 < list.length := List.length_pos.mpr hne
  obtain ⟨S2, node, hrun, hperm, hbuilt⟩ :=
    createBvh_range list.length list 0 list.length hpos (Nat.le_refl _) (by omega)
  refine ⟨S2, node, ?_, ?_, hbuilt⟩
  · unfold NewBoundingVolumeHierarchy
    rw [if_neg (by omega), hrun]
  · simpa using hperm

/-! ## Construction: failure, termination, shape -/

/-- C3: `NewBoundingVolumeHierarchy` fails exactly on the empty list, where it panics with the
message of the source; on every non-empty list, and only there, it returns a `bvh` node. -/
theorem NewBoundingVolumeHierarchy_fails_iff_empty (list : List Primitive) :
    ((∃ e, NewBoundingVolumeHierarchy list = .error e) ↔ list = []) ∧
    (NewBoundingVolumeHierarchy list =
        .error (.panic "Cannot create a Bvh with empty list of objects") ↔ list = []) ∧
    ((∃ left right bBox, NewBoundingVolumeHierarchy list = .ok (.bvh left right bBox)) ↔
      list ≠ []) := by
  by_cases h : list = []
  · subst h
    have e : NewBoundingVolumeHierarchy [] =
        .error (.panic "Cannot create a Bvh with empty list of objects") := rfl
    refine ⟨⟨fun _ => rfl, fun _ => ⟨_, e⟩⟩, ⟨fun _ => rfl, fun _ => e⟩, ?_⟩
    constructor
    · rintro ⟨l, r, b, hb⟩
      rw [e] at hb
      cases hb
    · intro hne
      exact absurd rfl hne
  · obtain ⟨S2, node, hrun, _, hbuilt⟩ := NewBoundingVolumeHierarchy_built list h
    obtain ⟨l, r, b, rfl⟩ := hbuilt.is_bvh
    refine ⟨⟨?_, fun hl => absurd hl h⟩, ⟨?_, fun hl => absurd hl h⟩,
      ⟨fun _ => h, fun _ => ⟨l, r, b, hrun⟩⟩⟩
    · rintro ⟨e, he⟩
      rw [hrun] at he
      cases he
    · intro he
      rw [hrun] at he
      cases he

/-- C4: on every range `0 <= start < end <= len(list)` construction terminates.  In the general
case (at least three primitives) the split index after the fallback lies strictly between
`start` and `end`, so both recursive calls are on non-empty, strictly smaller ranges; and
`createBvh` returns a result at every recursion budget of at least `end - start`, the same
result at each of them. -/
theorem createBvh_terminates (list : List Primitive) (start end_ : Nat)
    (h1 : start < end_) (h2 : end_ ≤ list.length) :
    (3 ≤ end_ - start →
      ∃ list1 mid, createBvh.split list start end_ = .ok (list1, mid) ∧
        start < mid ∧ mid < end_ ∧ list1.length = list.length) ∧
    (∃ res, ∀ fuel, end_ - start ≤ fuel → createBvh fuel list start end_ = .ok res) := by
  obtain ⟨hdec, hA, hS⟩ := range_decomposition list start end_ (by omega) h2
  constructor
  · intro h3
    obtain ⟨S1, m, hsplit, hperm, hm0, hm⟩ :=
      createBvh.split_append (list.take start) ((list.drop start).take (end_ - start))
        (list.drop end_) (by omega)
    rw [hA, hS, ← hdec, show start + (end_ - start) = end_ by omega] at hsplit
    refine ⟨_, _, hsplit, by omega, by omega, ?_⟩
    have := hperm.length_eq
    simp only [List.length_append, this, hS, hA, List.length_drop]
    omega
  · obtain ⟨S2, node, hrun, _, _⟩ :=
      createBvh_range (end_ - start) list start end_ h1 h2 (Nat.le_refl _)
    refine ⟨(list.take start ++ S2 ++ list.drop end_, node), fun fuel hfuel => ?_⟩
    have := createBvh_fuel_mono (end_ - start) (fuel - (end_ - start)) list start end_ _ hrun
    rwa [show end_ - start + (fuel - (end_ - start)) = fuel by omega] at this

/-- C4, at a concrete input: three coincident unit spheres, range `[0, 3)`. -/
theorem createBvh_terminates_witness :
    (0 < 3 ∧ 3 ≤ [unitSphereAt 0 0 0, unitSphereAt 0 0 0, unitSphereAt 0 0 0].length) ∧
    ((3 ≤ 3 - 0 →
      ∃ list1 mid,
        createBvh.split [unitSphereAt 0 0 0, unitSphereAt 0 0 0, unitSphereAt 0 0 0] 0 3 =
          .ok (list1, mid) ∧
        0 < mid ∧ mid < 3 ∧
        list1.length = [unitSphereAt 0 0 0, unitSphereAt 0 0 0, unitSphereAt 0 0 0].length) ∧
    (∃ res, ∀ fuel, 3 - 0 ≤ fuel →
      createBvh fuel [unitSphereAt 0 0 0, unitSphereAt 0 0 0, unitSphereAt 0 0 0] 0 3 =
        .ok res)) :=
  ⟨⟨by decide, by decide⟩,
    createBvh_terminates [unitSphereAt 0 0 0, unitSphereAt 0 0 0, unitSphereAt 0 0 0] 0 3
      (by decide) (by decide)⟩

/-- C5: in every tree returned by `NewBoundingVolumeHierarchy`, the cached box of every `bvh`
node is the union of the boxes of its two children; hence it contains both children's boxes
and the box of every primitive beneath the node. -/
theorem NewBoundingVolumeHierarchy_boxes (list : List Primitive) (node : Hittable)
    (h : NewBoundingVolumeHierarchy list = .ok node) :
    node.boxesAreUnions ∧ node.boxesContainChildren ∧ node.boxesContainLeaves := by
  have hne : list ≠ [] := by
    intro hl
    subst hl
    cases h
  obtain ⟨S2, node2, hrun, _, hbuilt⟩ := NewBoundingVolumeHierarchy_built list hne
  rw [hrun] at h
  cases h
  have hu := hbuilt.boxesAreUnions
  exact ⟨hu, Hittable.boxesAreUnions.containChildren _ hu,
    Hittable.boxesAreUnions.containLeaves _ hu⟩

/-- C5, at a concrete input: the tree over the two unit spheres around `(0,0,0)` and
`(10,0,0)`. -/
theorem NewBoundingVolumeHierarchy_boxes_witness :
    (Hittable.bvh (.prim (unitSphereAt 0 0 0)) (.prim (unitSphereAt 10 0 0))
      (combineAabbs (unitSphereAt 0 0 0).BoundingBox
        (unitSphereAt 10 0 0).BoundingBox)).boxesAreUnions ∧
    (Hittable.bvh (.prim (unitSphereAt 0 0 0)) (.prim (unitSphereAt 10 0 0))
      (combineAabbs (unitSphereAt 0 0 0).BoundingBox
        (unitSphereAt 10 0 0).BoundingBox)).boxesContainChildren ∧
    (Hittable.bvh (.prim (unitSphereAt 0 0 0)) (.prim (unitSphereAt 10 0 0))
      (combineAabbs (unitSphereAt 0 0 0).BoundingBox
        (unitSphereAt 10 0 0).BoundingBox)).boxesContainLeaves :=
  NewBoundingVolumeHierarchy_boxes [unitSphereAt 0 0 0, unitSphereAt 10 0 0] _ rfl

/-- C6: the tree built from a one-element list `[p]` is the node whose left and right child
are both `p` and whose box is the box of `p`. -/
theorem NewBoundingVolumeHierarchy_singleton (p : Primitive) :
    NewBoundingVolumeHierarchy [p] = .ok (.bvh (.prim p) (.prim p) p.BoundingBox) := by
  rfl

theorem split_of_identical_centers (A S B : List Primitive) (c : Vec3) (h3 : 3 ≤ S.length)
    (hc : ∀ p ∈ S, p.Center = c) :
    ∃ S1 : List Primitive,
      sortHittablesSliceByMostSpreadAxis (A ++ S ++ B) A.length (A.length + S.length) =
        .ok (A ++ S1 ++ B, A.length) ∧
      createBvh.split (A ++ S ++ B) A.length (A.length + S.length) =
        .ok (A ++ S1 ++ B, A.length + S.length / 2) ∧
      S1.Perm S := by
  have hne : S ≠ [] := by
    intro h; rw [h] at h3; simp at h3
  have hcond : A.length ≤ A.length + S.length ∧
      A.length + S.length ≤ (A ++ S ++ B).length := by
    simp [List.length_append]
  have hslice : ((A ++ S ++ B).drop A.length).take (A.length + S.length - A.length) = S := by
    simp [List.append_assoc]
  have htake : (A ++ S ++ B).take A.length = A := by
    simp [List.append_assoc]
  have hdrop : (A ++ S ++ B).drop (A.length + S.length) = B := by
    rw [← List.length_append, List.drop_left]
  have hx := boundingBoxSpread_const S (fun h => h.Center.X) c.X hne
    (fun p hp => by simp [hc p hp])
  have hy := boundingBoxSpread_const S (fun h => h.Center.Y) c.Y hne
    (fun p hp => by simp [hc p hp])
  have hz := boundingBoxSpread_const S (fun h => h.Center.Z) c.Z hne
    (fun p hp => by simp [hc p hp])
  have hidx : (sortHittablesByCenter S c.X (fun h => h.Center.X)).2 = 0 :=
    sortHittablesByCenter_of_not_below S c.X _ (fun p hp => by simp [hc p hp])
  have hsort : sortHittablesSliceByMostSpreadAxis (A ++ S ++ B) A.length
      (A.length + S.length) =
        .ok (A ++ (sortHittablesByCenter S c.X (fun h => h.Center.X)).1 ++ B, A.length) := by
    unfold sortHittablesSliceByMostSpreadAxis
    rw [if_pos hcond, hslice, htake, hdrop]
    simp [hx, hy, hz, hidx]
  refine ⟨_, hsort, ?_, sortHittablesByCenter_perm S c.X _⟩
  unfold createBvh.split
  rw [hsort]
  simp

/-- C9: `createBvh(list, start, end)` on a range `0 <= start < end <= len(list)` leaves in
`[start, end)` a permutation of the elements that were there, keeps the length of the list, and
leaves every element at an index outside `[start, end)` unchanged. -/
theorem createBvh_permutes_range (fuel : Nat) (list : List Primitive) (start end_ : Nat)
    (h1 : start < end_) (h2 : end_ ≤ list.length) (hfuel : end_ - start ≤ fuel) :
    ∃ (list2 : List Primitive) (node : Hittable),
      createBvh fuel list start end_ = .ok (list2, node) ∧
      ((list2.drop start).take (end_ - start)).Perm ((list.drop start).take (end_ - start)) ∧
      list2.length = list.length ∧
      (∀ k, k < start ∨ end_ ≤ k → list2[k]? = list[k]?) := by
  obtain ⟨S2, node, hrun, hperm, _⟩ := createBvh_range fuel list start end_ h1 h2 hfuel
  obtain ⟨_, hA, hS⟩ := range_decomposition list start end_ (by omega) h2
  have hS2 : S2.length = end_ - start := by rw [hperm.length_eq, hS]
  refine ⟨_, node, hrun, ?_, ?_, ?_⟩
  · have d : (list.take start ++ (S2 ++ list.drop end_)).drop start = S2 ++ list.drop end_ := by
      have := List.drop_left (list.take start) (S2 ++ list.drop end_)
      rwa [hA] at this
    have t : (S2 ++ list.drop end_).take (end_ - start) = S2 := by
      rw [← hS2]
      exact List.take_left _ _
    rw [List.append_assoc, d, t]
    exact hperm
  · simp only [List.length_append, hA, hS2, List.length_drop]
    omega
  · intro k hk
    rcases hk with hk | hk
    · rw [List.append_assoc, List.getElem?_append_left (by omega)]
      rw [List.getElem?_take, if_pos hk]
    · rw [List.getElem?_append_right (by simp only [List.length_append, hA, hS2]; omega)]
      simp only [List.length_append, hA, hS2, List.getElem?_drop]
      congr 1
      omega

/-- C9, at a concrete input: the range `[1, 4)` of five unit spheres along the x axis. -/
theorem createBvh_permutes_range_witness :
    (1 < 4 ∧
      4 ≤ [unitSphereAt 0 0 0, unitSphereAt 30 0 0, unitSphereAt 10 0 0, unitSphereAt 20 0 0,
        unitSphereAt 40 0 0].length ∧ 4 - 1 ≤ 3) ∧
    ∃ (list2 : List Primitive) (node : Hittable),
      createBvh 3 [unitSphereAt 0 0 0, unitSphereAt 30 0 0, unitSphereAt 10 0 0,
        unitSphereAt 20 0 0, unitSphereAt 40 0 0] 1 4 = .ok (list2, node) ∧
      ((list2.drop 1).take (4 - 1)).Perm
        (([unitSphereAt 0 0 0, unitSphereAt 30 0 0, unitSphereAt 10 0 0, unitSphereAt 20 0 0,
          unitSphereAt 40 0 0].drop 1).take (4 - 1)) ∧
      list2.length = [unitSphereAt 0 0 0, unitSphereAt 30 0 0, unitSphereAt 10 0 0,
        unitSphereAt 20 0 0, unitSphereAt 40 0 0].length ∧
      (∀ k, k < 1 ∨ 4 ≤ k → list2[k]? = [unitSphereAt 0 0 0, unitSphereAt 30 0 0,
        unitSphereAt 10 0 0, unitSphereAt 20 0 0, unitSphereAt 40 0 0][k]?) :=
  ⟨⟨by decide, by decide, by decide⟩,
    createBvh_permutes_range 3 [unitSphereAt 0 0 0, unitSphereAt 30 0 0, unitSphereAt 10 0 0,
      unitSphereAt 20 0 0, unitSphereAt 40 0 0] 1 4 (by decide) (by decide) (by decide)⟩

/-! ## Lemmas on the box test -/

theorem aabb.clipAxis_mono {lo hi lo2 hi2 orig dir : ℚ} {i i2 j : Interval}
    (hlo : lo2 ≤ lo) (hhi : hi ≤ hi2) (hmin : i2.Min ≤ i.Min) (hmax : i.Max ≤ i2.Max)
    (h : aabb.clipAxis lo hi orig dir i = some j) :
    ∃ j2, aabb.clipAxis lo2 hi2 orig dir i2 = some j2 ∧ j2.Min ≤ j.Min ∧ j.Max ≤ j2.Max := by
  unfold aabb.clipAxis at h ⊢
  by_cases hd : dir = 0
  · rw [if_pos hd] at h ⊢
    by_cases hin : lo < orig ∧ orig < hi
    · rw [if_pos hin] at h
      rw [if_pos ⟨lt_of_le_of_lt hlo hin.1, lt_of_lt_of_le hin.2 hhi⟩]
      cases h
      exact ⟨i2, rfl, hmin, hmax⟩
    · rw [if_neg hin] at h
      cases h
  · rw [if_neg hd] at h ⊢
    dsimp only at h ⊢
    cases h
    refine ⟨_, rfl, ?_, ?_⟩
    · dsimp only
      by_cases hneg : 1 / dir < 0
      · rw [if_pos hneg, if_pos hneg]
        exact max_le_max (mul_le_mul_of_nonpos_right (by linarith) (le_of_lt hneg)) hmin
      · rw [if_neg hneg, if_neg hneg]
        exact max_le_max (mul_le_mul_of_nonneg_right (by linarith) (not_lt.mp hneg)) hmin
    · dsimp only
      by_cases hneg : 1 / dir < 0
      · rw [if_pos hneg, if_pos hneg]
        exact min_le_min (mul_le_mul_of_nonpos_right (by linarith) (le_of_lt hneg)) hmax
      · rw [if_neg hneg, if_neg hneg]
        exact min_le_min (mul_le_mul_of_nonneg_right (by linarith) (not_lt.mp hneg)) hmax

theorem aabb.hit_mono {b b2 : aabb} (hc : b2.contains b) (r : ray) (i : Interval)
    (h : b.hit r i = true) : b2.hit r i = true := by
  obtain ⟨⟨x1, y1, z1⟩, x2, y2, z2⟩ := hc
  unfold aabb.hit at h ⊢
  cases hx : aabb.clipAxis b.min.X b.max.X r.orig.X r.dir.X i with
  | none => rw [hx] at h; simp at h
  | some ix =>
    obtain ⟨ix2, hx2, hxa, hxb⟩ := aabb.clipAxis_mono x1 x2 (le_refl _) (le_refl _) hx
    rw [hx] at h
    rw [hx2]
    simp only [Option.some_bind] at h ⊢
    cases hy : aabb.clipAxis b.min.Y b.max.Y r.orig.Y r.dir.Y ix with
    | none => rw [hy] at h; simp at h
    | some iy =>
      obtain ⟨iy2, hy2, hya, hyb⟩ := aabb.clipAxis_mono y1 y2 hxa hxb hy
      rw [hy] at h
      rw [hy2]
      simp only [Option.some_bind] at h ⊢
      cases hz : aabb.clipAxis b.min.Z b.max.Z r.orig.Z r.dir.Z iy with
      | none => rw [hz] at h; simp at h
      | some iz =>
        obtain ⟨iz2, hz2, hza, hzb⟩ := aabb.clipAxis_mono z1 z2 hya hyb hz
        rw [hz] at h
        rw [hz2]
        simp only [decide_eq_true_eq] at h ⊢
        linarith

/-! ## Lemmas on the query -/

theorem Hittable.Hit_bvh_of_miss (left right : Hittable) (bBox : aabb) (r : ray) (i : Interval)
    (h : bBox.hit r i = false) : (Hittable.bvh left right bBox).Hit r i = none := by
  simp [Hittable.Hit, h]

theorem Hittable.Hit_bvh_of_left_none (left right : Hittable) (bBox : aabb) (r : ray)
    (i : Interval) (h : bBox.hit r i = true) (hl : left.Hit r i = none) :
    (Hittable.bvh left right bBox).Hit r i = right.Hit r i := by
  simp only [Hittable.Hit, h, hl]
  cases right.Hit r i <;> rfl

theorem Hittable.Hit_bvh_of_left_some (left right : Hittable) (bBox : aabb) (r : ray)
    (i : Interval) (rec : HitRecord) (h : bBox.hit r i = true) (hl : left.Hit r i = some rec) :
    (Hittable.bvh left right bBox).Hit r i =
      match right.Hit r { Min := i.Min, Max := rec.RayLength } with
      | some recRight => some recRight
      | none => some rec := by
  simp only [Hittable.Hit, h, hl]
  rfl

/-- A hit reported by a tree comes with a hit of one of its leaves over the same interval. -/
theorem Hittable.leaf_of_Hit (r : ray) (i : Interval) :
    ∀ (t : Hittable), (t.Hit r i).isSome → ∃ p ∈ t.leaves, (p.Hit r i).isSome
  | .prim p, h => ⟨p, by simp [Hittable.leaves], h⟩
  | .bvh left right bBox, h => by
    cases hb : bBox.hit r i with
    | false =>
      rw [Hittable.Hit_bvh_of_miss left right bBox r i hb] at h
      simp at h
    | true =>
      cases hl : left.Hit r i with
      | some rec =>
        obtain ⟨p, hp, hhit⟩ := Hittable.leaf_of_Hit r i left (by rw [hl]; rfl)
        exact ⟨p, by simp [Hittable.leaves, hp], hhit⟩
      | none =>
        rw [Hittable.Hit_bvh_of_left_none left right bBox r i hb hl] at h
        obtain ⟨p, hp, hhit⟩ := Hittable.leaf_of_Hit r i right h
        exact ⟨p, by simp [Hittable.leaves, hp], hhit⟩

/-- A tree reports a hit exactly when one of its primitives reports a hit over the interval and
every node box above that primitive passes its test over the interval. -/
theorem Hittable.Hit_isSome_iff_hitReachable (r : ray) (i : Interval) :
    ∀ (t : Hittable), (t.Hit r i).isSome = true ↔ t.hitReachable r i
  | .prim p => by simp [Hittable.Hit, Hittable.hitReachable]
  | .bvh left right bBox => by
    have ihl := Hittable.Hit_isSome_iff_hitReachable r i left
    have ihr := Hittable.Hit_isSome_iff_hitReachable r i right
    cases hb : bBox.hit r i with
    | false =>
      rw [Hittable.Hit_bvh_of_miss left right bBox r i hb]
      simp [Hittable.hitReachable, hb]
    | true =>
      cases hl : left.Hit r i with
      | some rec =>
        rw [Hittable.Hit_bvh_of_left_some left right bBox r i rec hb hl]
        have h1 : left.hitReachable r i := ihl.mp (by rw [hl]; rfl)
        constructor
        · intro _
          exact ⟨hb, Or.inl h1⟩
        · intro _
          cases right.Hit r { Min := i.Min, Max := rec.RayLength } <;> rfl
      | none =>
        rw [Hittable.Hit_bvh_of_left_none left right bBox r i hb hl]
        have h1 : ¬ left.hitReachable r i := fun h => by
          have := ihl.mpr h
          rw [hl] at this
          cases this
        constructor
        · intro h
          exact ⟨hb, Or.inr (ihr.mp h)⟩
        · intro h
          rcases h.2 with h2 | h2
          · exact absurd h2 h1
          · exact ihr.mpr h2

/-- The primitive that makes a tree report a hit is one of its leaves. -/
theorem Hittable.hitReachable.leaf (r : ray) (i : Interval) :
    ∀ (t : Hittable), t.hitReachable r i → ∃ p ∈ t.leaves, (p.Hit r i).isSome = true
  | .prim p, h => ⟨p, by simp [Hittable.leaves], h⟩
  | .bvh left right _, h => by
    rcases h.2 with h2 | h2
    · obtain ⟨p, hp, hhit⟩ := Hittable.hitReachable.leaf r i left h2
      exact ⟨p, by simp [Hittable.leaves, hp], hhit⟩
    · obtain ⟨p, hp, hhit⟩ := Hittable.hitReachable.leaf r i right h2
      exact ⟨p, by simp [Hittable.leaves, hp], hhit⟩

/-- On a tree whose node boxes are unions, a leaf that reports a hit and passes the test of its
own box has every node box above it pass as well. -/
theorem Hittable.hitReachable_of_leaf (r : ray) (i : Interval) :
    ∀ (t : Hittable), t.boxesAreUnions →
      (∃ p ∈ t.leaves, (p.Hit r i).isSome = true ∧ p.BoundingBox.hit r i = true) →
      t.hitReachable r i
  | .prim p, _, h => by
    obtain ⟨q, hq, hhit, _⟩ := h
    simp [Hittable.leaves] at hq
    subst hq
    exact hhit
  | .bvh left right bBox, hu, h => by
    obtain ⟨q, hq, hhit, hbox⟩ := h
    have hb : bBox.hit r i = true :=
      aabb.hit_mono (Hittable.boxesAreUnions.contains_leaf _ hu q hq) r i hbox
    simp only [Hittable.leaves, List.mem_append] at hq
    rcases hq with hq | hq
    · exact ⟨hb, Or.inl (Hittable.hitReachable_of_leaf r i left hu.2.1 ⟨q, hq, hhit, hbox⟩)⟩
    · exact ⟨hb, Or.inr (Hittable.hitReachable_of_leaf r i right hu.2.2 ⟨q, hq, hhit, hbox⟩)⟩

theorem queryRayLength_eq_ok (list : List Primitive) (r : ray) (i : Interval) (x : Option ℚ)
    (h : queryRayLength list r i = .ok x) :
    ∃ node, NewBoundingVolumeHierarchy list = .ok node ∧
      (node.Hit r i).map (fun rec => rec.RayLength) = x := by
  unfold queryRayLength at h
  cases hn : NewBoundingVolumeHierarchy list with
  | error e => rw [hn] at h; cases h
  | ok node =>
    rw [hn] at h
    exact ⟨node, rfl, Except.ok.inj h⟩

/-! ## Soundness of the query on built trees -/

/-- C1 (counterexample): the three unit spheres of the scenario, the ray from `(10,0,-5)` along
`(0,0,1)` and the interval `[0, 4]`.  The middle sphere reports a hit at `RayLength = 4`, which
lies within the interval, while the range of the root box, `[4, 6]`, only touches the interval,
so the box test misses and the tree reports no hit: the equivalence of the claim fails here. -/
theorem bvh_misses_hit_at_interval_end :
    queryRayLength [unitSphereAt 0 0 0, unitSphereAt 10 0 0, unitSphereAt 20 0 0]
        ⟨⟨10, 0, -5⟩, ⟨0, 0, 1⟩⟩ ⟨0, 4⟩ = .ok none ∧
    ((unitSphereAt 10 0 0).Hit ⟨⟨10, 0, -5⟩, ⟨0, 0, 1⟩⟩ ⟨0, 4⟩).map (fun rec => rec.RayLength) =
      some 4 ∧
    ¬ (∀ node,
      NewBoundingVolumeHierarchy [unitSphereAt 0 0 0, unitSphereAt 10 0 0, unitSphereAt 20 0 0] =
        .ok node →
      ((node.Hit ⟨⟨10, 0, -5⟩, ⟨0, 0, 1⟩⟩ ⟨0, 4⟩).isSome ↔
        ∃ p ∈ [unitSphereAt 0 0 0, unitSphereAt 10 0 0, unitSphereAt 20 0 0],
          (p.Hit ⟨⟨10, 0, -5⟩, ⟨0, 0, 1⟩⟩ ⟨0, 4⟩).isSome)) := by
  have h1 : queryRayLength [unitSphereAt 0 0 0, unitSphereAt 10 0 0, unitSphereAt 20 0 0]
      ⟨⟨10, 0, -5⟩, ⟨0, 0, 1⟩⟩ ⟨0, 4⟩ = .ok none := by decide!
  have h2 : ((unitSphereAt 10 0 0).Hit ⟨⟨10, 0, -5⟩, ⟨0, 0, 1⟩⟩ ⟨0, 4⟩).map
      (fun rec => rec.RayLength) = some 4 := by decide!
  refine ⟨h1, h2, fun h => ?_⟩
  obtain ⟨node, hn, hmap⟩ := queryRayLength_eq_ok _ _ _ _ h1
  have hsome : (node.Hit ⟨⟨10, 0, -5⟩, ⟨0, 0, 1⟩⟩ ⟨0, 4⟩).isSome :=
    (h node hn).mpr ⟨unitSphereAt 10 0 0, by simp, by
      cases hp : (unitSphereAt 10 0 0).Hit ⟨⟨10, 0, -5⟩, ⟨0, 0, 1⟩⟩ ⟨0, 4⟩ with
      | none => rw [hp] at h2; cases h2
      | some rec => rfl⟩
  cases hq : node.Hit ⟨⟨10, 0, -5⟩, ⟨0, 0, 1⟩⟩ ⟨0, 4⟩ with
  | none => rw [hq] at hsome; cases hsome
  | some rec => rw [hq] at hmap; cases hmap

/-- C1 (amended): for every non-empty list, ray and interval, the built tree reports a hit
exactly when some primitive beneath it reports a hit within the interval and the box of every
node above that primitive passes the box test over the interval.  Hence a hit reported by the
tree comes with a hit of at least one primitive of the list within the interval; and when at
least one primitive of the list reports a hit within the interval and passes the test of its own
bounding box over the interval, the tree reports a hit. -/
theorem bvh_hit_sound (list : List Primitive) (r : ray) (i : Interval) (hne : list ≠ []) :
    ∃ node, NewBoundingVolumeHierarchy list = .ok node ∧
      ((node.Hit r i).isSome = true ↔ node.hitReachable r i) ∧
      ((node.Hit r i).isSome = true → ∃ p ∈ list, (p.Hit r i).isSome = true) ∧
      ((∃ p ∈ list, (p.Hit r i).isSome = true ∧ p.BoundingBox.hit r i = true) →
        (node.Hit r i).isSome = true) := by
  obtain ⟨S2, node, hrun, hperm, hbuilt⟩ := NewBoundingVolumeHierarchy_built list hne
  have hmem : ∀ p, p ∈ node.leaves ↔ p ∈ list := fun p =>
    (hbuilt.mem_leaves p).trans hperm.mem_iff
  refine ⟨node, hrun, Hittable.Hit_isSome_iff_hitReachable r i node, ?_, ?_⟩
  · intro h
    obtain ⟨p, hp, hhit⟩ := Hittable.leaf_of_Hit r i node h
    exact ⟨p, (hmem p).mp hp, hhit⟩
  · intro ⟨p, hp, hhit, hbox⟩
    exact (Hittable.Hit_isSome_iff_hitReachable r i node).mpr
      (Hittable.hitReachable_of_leaf r i node hbuilt.boxesAreUnions
        ⟨p, (hmem p).mpr hp, hhit, hbox⟩)

/-- C1 (amended), at a concrete input: unit spheres at `(0,0,0)`, `(0,0,10)` and `(0,0,20)`, the
ray from `(0,0,-5)` along `(0,0,1)` and the interval `[6, 100]`.  The second sphere reports a
hit and passes the test of its own box, and the tree reports a hit, although the first sphere
reports a hit whose box test fails. -/
theorem bvh_hit_sound_witness :
    [unitSphereAt 0 0 0, unitSphereAt 0 0 10, unitSphereAt 0 0 20] ≠ [] ∧
    (∃ p ∈ [unitSphereAt 0 0 0, unitSphereAt 0 0 10, unitSphereAt 0 0 20],
      (p.Hit ⟨⟨0, 0, -5⟩, ⟨0, 0, 1⟩⟩ ⟨6, 100⟩).isSome = true ∧
        p.BoundingBox.hit ⟨⟨0, 0, -5⟩, ⟨0, 0, 1⟩⟩ ⟨6, 100⟩ = true) ∧
    ((unitSphereAt 0 0 0).Hit ⟨⟨0, 0, -5⟩, ⟨0, 0, 1⟩⟩ ⟨6, 100⟩).isSome = true ∧
    (unitSphereAt 0 0 0).BoundingBox.hit ⟨⟨0, 0, -5⟩, ⟨0, 0, 1⟩⟩ ⟨6, 100⟩ = false ∧
    ∃ node,
      NewBoundingVolumeHierarchy [unitSphereAt 0 0 0, unitSphereAt 0 0 10, unitSphereAt 0 0 20] =
        .ok node ∧
      (node.Hit ⟨⟨0, 0, -5⟩, ⟨0, 0, 1⟩⟩ ⟨6, 100⟩).isSome = true := by
  have hex : ∃ p ∈ [unitSphereAt 0 0 0, unitSphereAt 0 0 10, unitSphereAt 0 0 20],
      (p.Hit ⟨⟨0, 0, -5⟩, ⟨0, 0, 1⟩⟩ ⟨6, 100⟩).isSome = true ∧
        p.BoundingBox.hit ⟨⟨0, 0, -5⟩, ⟨0, 0, 1⟩⟩ ⟨6, 100⟩ = true := by
    decide!
  obtain ⟨node, hok, _, _, hconv⟩ :=
    bvh_hit_sound [unitSphereAt 0 0 0, unitSphereAt 0 0 10, unitSphereAt 0 0 20]
      ⟨⟨0, 0, -5⟩, ⟨0, 0, 1⟩⟩ ⟨6, 100⟩ (by simp)
  exact ⟨by simp, hex, by decide!, by decide!, node, hok, hconv hex⟩

/-! ## Nearest hit -/

/-- On a tree whose leaves keep the contract of a primitive and whose node boxes do not prune a
hit below the upper bound, a query over `[i.Min, c]` returns the least `RayLength` among the hits
over `i` of the leaves, and returns no hit only when no leaf has a hit over `i` below `c`. -/
theorem Hittable.Hit_nearest (r : ray) (i : Interval) :
    ∀ (t : Hittable),
      (∀ p ∈ t.leaves, p.nearestWithin r i) → t.boxesAdmit r i →
      ∀ c, c ≤ i.Max →
        (∀ rec, t.Hit r { Min := i.Min, Max := c } = some rec →
          rec.RayLength ≤ c ∧
          (∃ p ∈ t.leaves, ∃ rec2, p.Hit r i = some rec2 ∧ rec2.RayLength = rec.RayLength) ∧
          (∀ p ∈ t.leaves, ∀ rec2, p.Hit r i = some rec2 → rec.RayLength ≤ rec2.RayLength)) ∧
        (t.Hit r { Min := i.Min, Max := c } = none →
          ∀ p ∈ t.leaves, ∀ rec2, p.Hit r i = some rec2 → c ≤ rec2.RayLength)
  | .prim p, hn, _, c, hc => by
    have hp := hn p (by simp [Hittable.leaves]) c hc
    constructor
    · intro rec hrec
      obtain ⟨hle, rec0, h0, he⟩ := hp.2 rec hrec
      refine ⟨hle, ⟨p, by simp [Hittable.leaves], rec0, h0, he⟩, ?_⟩
      intro q hq rec2 h2
      simp [Hittable.leaves] at hq
      subst hq
      rw [h0] at h2
      cases h2
      exact le_of_eq he.symm
    · intro hnone q hq rec2 h2
      simp [Hittable.leaves] at hq
      subst hq
      by_contra hlt
      obtain ⟨rec3, h3, _⟩ := hp.1 rec2 h2 (le_of_lt (not_le.mp hlt))
      simp only [Hittable.Hit] at hnone
      rw [hnone] at h3
      cases h3
  | .bvh left right bBox, hn, hadm, c, hc => by
    have hnl : ∀ p ∈ left.leaves, p.nearestWithin r i :=
      fun p hp => hn p (by simp [Hittable.leaves, hp])
    have hnr : ∀ p ∈ right.leaves, p.nearestWithin r i :=
      fun p hp => hn p (by simp [Hittable.leaves, hp])
    have ihl := Hittable.Hit_nearest r i left hnl hadm.2.1
    have ihr := Hittable.Hit_nearest r i right hnr hadm.2.2
    cases hb : bBox.hit r { Min := i.Min, Max := c } with
    | false =>
      rw [Hittable.Hit_bvh_of_miss left right bBox r _ hb]
      refine ⟨fun rec h => (by cases h), ?_⟩
      intro _ q hq rec2 h2
      by_contra hlt
      obtain ⟨rec3, h3, he⟩ := (hn q hq c hc).1 rec2 h2 (le_of_lt (not_le.mp hlt))
      have := hadm.1 c hc ⟨q, hq, rec3, h3, by rw [he]; exact not_le.mp hlt⟩
      rw [hb] at this
      cases this
    | true =>
      cases hl : left.Hit r { Min := i.Min, Max := c } with
      | none =>
        rw [Hittable.Hit_bvh_of_left_none left right bBox r _ hb hl]
        have hlnone := (ihl c hc).2 hl
        constructor
        · intro rec hrec
          obtain ⟨hle, ⟨q, hq, rec0, h0, he⟩, hmin⟩ := (ihr c hc).1 rec hrec
          refine ⟨hle, ⟨q, by simp [Hittable.leaves, hq], rec0, h0, he⟩, ?_⟩
          intro p hp rec2 h2
          simp only [Hittable.leaves, List.mem_append] at hp
          rcases hp with hp | hp
          · exact le_trans hle (hlnone p hp rec2 h2)
          · exact hmin p hp rec2 h2
        · intro hrnone p hp rec2 h2
          simp only [Hittable.leaves, List.mem_append] at hp
          rcases hp with hp | hp
          · exact hlnone p hp rec2 h2
          · exact (ihr c hc).2 hrnone p hp rec2 h2
      | some recL =>
        rw [Hittable.Hit_bvh_of_left_some left right bBox r _ recL hb hl]
        obtain ⟨hLle, ⟨qL, hqL, recL0, hL0, hLe⟩, hLmin⟩ := (ihl c hc).1 recL hl
        have hc2 : recL.RayLength ≤ i.Max := le_trans hLle hc
        dsimp only
        cases hr : right.Hit r { Min := i.Min, Max := recL.RayLength } with
        | none =>
          have hrnone := (ihr recL.RayLength hc2).2 hr
          dsimp only
          refine ⟨?_, fun h => by cases h⟩
          intro rec hrec
          cases hrec
          refine ⟨hLle, ⟨qL, by simp [Hittable.leaves, hqL], recL0, hL0, hLe⟩, ?_⟩
          intro p hp rec2 h2
          simp only [Hittable.leaves, List.mem_append] at hp
          rcases hp with hp | hp
          · exact hLmin p hp rec2 h2
          · exact hrnone p hp rec2 h2
        | some recR =>
          obtain ⟨hRle, ⟨qR, hqR, recR0, hR0, hRe⟩, hRmin⟩ :=
            (ihr recL.RayLength hc2).1 recR hr
          dsimp only
          refine ⟨?_, fun h => by cases h⟩
          intro rec hrec
          cases hrec
          refine ⟨le_trans hRle hLle,
            ⟨qR, by simp [Hittable.leaves, hqR], recR0, hR0, hRe⟩, ?_⟩
          intro p hp rec2 h2
          simp only [Hittable.leaves, List.mem_append] at hp
          rcases hp with hp | hp
          · exact le_trans hRle (hLmin p hp rec2 h2)
          · exact hRmin p hp rec2 h2

/-- On a tree whose node boxes are unions, primitives that pass the test of their own box
whenever they report a hit below the upper bound make every node box pass as well. -/
theorem Hittable.boxesAdmit_of_boxSound (r : ray) (i : Interval) :
    ∀ (t : Hittable), t.boxesAreUnions → (∀ p ∈ t.leaves, p.boxSound r i) → t.boxesAdmit r i
  | .prim _, _, _ => trivial
  | .bvh left right bBox, hu, hbs => by
    refine ⟨?_, ?_, ?_⟩
    · intro c hc ⟨p, hp, rec, hrec, hlt⟩
      have hp2 : p ∈ (Hittable.bvh left right bBox).leaves := by
        simpa [Hittable.leaves] using hp
      exact aabb.hit_mono (Hittable.boxesAreUnions.contains_leaf _ hu p hp2) r _
        (hbs p hp2 c hc rec hrec hlt)
    · exact Hittable.boxesAdmit_of_boxSound r i left hu.2.1
        (fun p hp => hbs p (by simp [Hittable.leaves, hp]))
    · exact Hittable.boxesAdmit_of_boxSound r i right hu.2.2
        (fun p hp => hbs p (by simp [Hittable.leaves, hp]))

/-! ## Lemmas on the sphere -/

theorem sphere.hit_eq (sqrt : ℚ → ℚ) (s : sphere) (r : ray) (rayTmin rayTmax : ℚ) :
    s.hit sqrt r rayTmin rayTmax =
      if s.discriminant r < 0 then none
      else if s.smallRoot sqrt r < rayTmin ∨ s.smallRoot sqrt r > rayTmax then
        if s.largeRoot sqrt r < rayTmin ∨ s.largeRoot sqrt r > rayTmax then none
        else some (s.recordAt r (s.largeRoot sqrt r))
      else some (s.recordAt r (s.smallRoot sqrt r)) := rfl

theorem sphere.recordAt_RayLength (s : sphere) (r : ray) (root : ℚ) :
    (s.recordAt r root).RayLength = root := rfl

theorem sphere.hit_eq_some_iff (sqrt : ℚ → ℚ) (s : sphere) (r : ray) (rayTmin rayTmax : ℚ)
    (rec : HitRecord) :
    s.hit sqrt r rayTmin rayTmax = some rec ↔
      ¬ s.discriminant r < 0 ∧
      ((rayTmin ≤ s.smallRoot sqrt r ∧ s.smallRoot sqrt r ≤ rayTmax ∧
          rec = s.recordAt r (s.smallRoot sqrt r)) ∨
        (¬ (rayTmin ≤ s.smallRoot sqrt r ∧ s.smallRoot sqrt r ≤ rayTmax) ∧
          rayTmin ≤ s.largeRoot sqrt r ∧ s.largeRoot sqrt r ≤ rayTmax ∧
          rec = s.recordAt r (s.largeRoot sqrt r))) := by
  rw [sphere.hit_eq]
  by_cases hd : s.discriminant r < 0
  · simp [hd]
  · rw [if_neg hd]
    by_cases hs : rayTmin ≤ s.smallRoot sqrt r ∧ s.smallRoot sqrt r ≤ rayTmax
    · have hs2 : ¬ (s.smallRoot sqrt r < rayTmin ∨ s.smallRoot sqrt r > rayTmax) := by
        rintro (h | h)
        · exact absurd hs.1 (not_le.mpr h)
        · exact absurd hs.2 (not_le.mpr h)
      rw [if_neg hs2]
      constructor
      · intro h
        exact ⟨hd, Or.inl ⟨hs.1, hs.2, (Option.some.inj h).symm⟩⟩
      · rintro ⟨_, ⟨_, _, h⟩ | ⟨h, _⟩⟩
        · rw [h]
        · exact absurd hs h
    · have hs2 : s.smallRoot sqrt r < rayTmin ∨ s.smallRoot sqrt r > rayTmax := by
        by_contra hc
        rw [not_or, not_lt, not_lt] at hc
        exact hs hc
      rw [if_pos hs2]
      by_cases hl : rayTmin ≤ s.largeRoot sqrt r ∧ s.largeRoot sqrt r ≤ rayTmax
      · have hl2 : ¬ (s.largeRoot sqrt r < rayTmin ∨ s.largeRoot sqrt r > rayTmax) := by
          rintro (h | h)
          · exact absurd hl.1 (not_le.mpr h)
          · exact absurd hl.2 (not_le.mpr h)
        rw [if_neg hl2]
        constructor
        · intro h
          exact ⟨hd, Or.inr ⟨hs, hl.1, hl.2, (Option.some.inj h).symm⟩⟩
        · rintro ⟨_, ⟨h1, h2, _⟩ | ⟨_, _, _, h⟩⟩
          · exact absurd ⟨h1, h2⟩ hs
          · rw [h]
      · have hl2 : s.largeRoot sqrt r < rayTmin ∨ s.largeRoot sqrt r > rayTmax := by
          by_contra hc
          rw [not_or, not_lt, not_lt] at hc
          exact hl hc
        rw [if_pos hl2]
        constructor
        · intro h
          cases h
        · rintro ⟨_, ⟨h1, h2, _⟩ | ⟨_, h1, h2, _⟩⟩
          · exact absurd ⟨h1, h2⟩ hs
          · exact absurd ⟨h1, h2⟩ hl

theorem Vec3.lengthSquared_nonneg (v : Vec3) : 0 ≤ v.lengthSquared := by
  unfold Vec3.lengthSquared
  nlinarith [mul_self_nonneg v.X, mul_self_nonneg v.Y, mul_self_nonneg v.Z]

theorem sphere.smallRoot_le_largeRoot (sqrt : ℚ → ℚ) (s : sphere) (r : ray)
    (hsq : 0 ≤ sqrt (s.discriminant r)) : s.smallRoot sqrt r ≤ s.largeRoot sqrt r := by
  unfold sphere.smallRoot sphere.largeRoot
  exact div_le_div_of_nonneg_right (by linarith) (Vec3.lengthSquared_nonneg _)

/-- Asking a sphere again, with the upper bound lowered to the `RayLength` of its hit, returns
the same record. -/
theorem sphere.hit_again (sqrt : ℚ → ℚ) (s : sphere) (r : ray) (rayTmin rayTmax : ℚ)
    (rec : HitRecord) (h : s.hit sqrt r rayTmin rayTmax = some rec) :
    s.hit sqrt r rayTmin rec.RayLength = some rec := by
  rw [sphere.hit_eq_some_iff] at h ⊢
  obtain ⟨hd, ⟨h1, h2, rfl⟩ | ⟨hs, h1, h2, rfl⟩⟩ := h
  · exact ⟨hd, Or.inl ⟨h1, le_refl _, rfl⟩⟩
  · refine ⟨hd, Or.inr ⟨?_, h1, le_refl _, rfl⟩⟩
    rintro ⟨g1, g2⟩
    rw [sphere.recordAt_RayLength] at g2
    exact hs ⟨g1, le_trans g2 h2⟩

/-- A sphere keeps the contract of a primitive towards the query, as soon as the square root of
its discriminant is not negative. -/
theorem sphere.toPrimitive_nearestWithin (sqrt : ℚ → ℚ) (s : sphere) (r : ray) (i : Interval)
    (hsq : 0 ≤ sqrt (s.discriminant r)) : (s.toPrimitive sqrt).nearestWithin r i := by
  have hord := sphere.smallRoot_le_largeRoot sqrt s r hsq
  intro c hc
  simp only [sphere.toPrimitive]
  constructor
  · intro rec hrec hle
    refine ⟨rec, ?_, rfl⟩
    rw [sphere.hit_eq_some_iff] at hrec ⊢
    obtain ⟨hd, ⟨h1, h2, rfl⟩ | ⟨hs, h1, h2, rfl⟩⟩ := hrec
    · exact ⟨hd, Or.inl ⟨h1, hle, rfl⟩⟩
    · refine ⟨hd, Or.inr ⟨?_, h1, hle, rfl⟩⟩
      rintro ⟨g1, g2⟩
      exact hs ⟨g1, le_trans g2 hc⟩
  · intro rec2 hrec2
    rw [sphere.hit_eq_some_iff] at hrec2
    obtain ⟨hd, ⟨h1, h2, rfl⟩ | ⟨hs, h1, h2, rfl⟩⟩ := hrec2
    · refine ⟨h2, s.recordAt r (s.smallRoot sqrt r), ?_, rfl⟩
      rw [sphere.hit_eq_some_iff]
      exact ⟨hd, Or.inl ⟨h1, le_trans h2 hc, rfl⟩⟩
    · refine ⟨h2, s.recordAt r (s.largeRoot sqrt r), ?_, rfl⟩
      rw [sphere.hit_eq_some_iff]
      refine ⟨hd, Or.inr ⟨?_, h1, le_trans h2 hc, rfl⟩⟩
      rintro ⟨g1, _⟩
      exact hs ⟨g1, le_trans hord h2⟩

theorem sqrtExact_nonneg (q : ℚ) : 0 ≤ sqrtExact q := by
  unfold sqrtExact
  positivity

/-! ## Nearest hit on built trees -/

/-- C2 (counterexample): unit spheres around `(0,0,0)`, `(0,0,10)` and `(0,0,20)`, the ray from
`(0,0,-5)` along `(0,0,1)` and the interval `[6, 100]`.  The first sphere reports a hit at
`RayLength = 6`, the least among the three, but it sits alone in the left subtree, whose box has
the range `[4, 6]` and so only touches the interval; the tree reports `RayLength = 14`, which is
not the minimum. -/
theorem bvh_reports_farther_hit :
    queryRayLength [unitSphereAt 0 0 0, unitSphereAt 0 0 10, unitSphereAt 0 0 20]
        ⟨⟨0, 0, -5⟩, ⟨0, 0, 1⟩⟩ ⟨6, 100⟩ = .ok (some 14) ∧
    ((unitSphereAt 0 0 0).Hit ⟨⟨0, 0, -5⟩, ⟨0, 0, 1⟩⟩ ⟨6, 100⟩).map (fun rec => rec.RayLength) =
      some 6 ∧
    ¬ (∀ node rec,
      NewBoundingVolumeHierarchy [unitSphereAt 0 0 0, unitSphereAt 0 0 10, unitSphereAt 0 0 20] =
        .ok node →
      node.Hit ⟨⟨0, 0, -5⟩, ⟨0, 0, 1⟩⟩ ⟨6, 100⟩ = some rec →
      ∀ p ∈ [unitSphereAt 0 0 0, unitSphereAt 0 0 10, unitSphereAt 0 0 20],
        ∀ rec2, p.Hit ⟨⟨0, 0, -5⟩, ⟨0, 0, 1⟩⟩ ⟨6, 100⟩ = some rec2 →
          rec.RayLength ≤ rec2.RayLength) := by
  have h1 : queryRayLength [unitSphereAt 0 0 0, unitSphereAt 0 0 10, unitSphereAt 0 0 20]
      ⟨⟨0, 0, -5⟩, ⟨0, 0, 1⟩⟩ ⟨6, 100⟩ = .ok (some 14) := by decide!
  have h2 : ((unitSphereAt 0 0 0).Hit ⟨⟨0, 0, -5⟩, ⟨0, 0, 1⟩⟩ ⟨6, 100⟩).map
      (fun rec => rec.RayLength) = some 6 := by decide!
  refine ⟨h1, h2, fun h => ?_⟩
  obtain ⟨node, hn, hmap⟩ := queryRayLength_eq_ok _ _ _ _ h1
  cases hq : node.Hit ⟨⟨0, 0, -5⟩, ⟨0, 0, 1⟩⟩ ⟨6, 100⟩ with
  | none => rw [hq] at hmap; cases hmap
  | some rec =>
    rw [hq] at hmap
    have hrec : rec.RayLength = 14 := Option.some.inj hmap
    cases hp : (unitSphereAt 0 0 0).Hit ⟨⟨0, 0, -5⟩, ⟨0, 0, 1⟩⟩ ⟨6, 100⟩ with
    | none => rw [hp] at h2; cases h2
    | some rec2 =>
      rw [hp] at h2
      have hrec2 : rec2.RayLength = 6 := Option.some.inj h2
      have hle := h node rec hn hq (unitSphereAt 0 0 0) (by simp) rec2 hp
      rw [hrec, hrec2] at hle
      norm_num at hle

/-- C2 (amended): for every non-empty list, ray and interval such that every primitive of the
list answers a query with a lowered upper bound with its nearest hit over the interval
(`nearestWithin`), and such that the box of every node of the built tree passes the box test
over `[i.Min, c]`, for `c <= i.Max`, whenever a primitive beneath the node reports there a hit
with `RayLength` below `c` (`boxesAdmit`) - as is the case when every primitive of the list
passes the test of its own box whenever it reports there such a hit (`boxSound`):
when the built tree reports a hit, its `RayLength` is that of the hit of some primitive of the
list within the interval, and no primitive of the list reports a smaller one there. -/
theorem bvh_hit_nearest (list : List Primitive) (r : ray) (i : Interval) (hne : list ≠ [])
    (hn : ∀ p ∈ list, p.nearestWithin r i) :
    ∃ node, NewBoundingVolumeHierarchy list = .ok node ∧
      ((∀ p ∈ list, p.boxSound r i) → node.boxesAdmit r i) ∧
      (node.boxesAdmit r i →
        ∀ rec, node.Hit r i = some rec →
          (∃ p ∈ list, ∃ rec2, p.Hit r i = some rec2 ∧ rec2.RayLength = rec.RayLength) ∧
          (∀ p ∈ list, ∀ rec2, p.Hit r i = some rec2 → rec.RayLength ≤ rec2.RayLength)) := by
  obtain ⟨S2, node, hrun, hperm, hbuilt⟩ := NewBoundingVolumeHierarchy_built list hne
  have hmem : ∀ p, p ∈ node.leaves ↔ p ∈ list := fun p =>
    (hbuilt.mem_leaves p).trans hperm.mem_iff
  refine ⟨node, hrun, ?_, ?_⟩
  · intro hb
    exact Hittable.boxesAdmit_of_boxSound r i node hbuilt.boxesAreUnions
      (fun q hq => hb q ((hmem q).mp hq))
  · intro hadm rec hrec
    obtain ⟨_, ⟨p, hp, rec2, h2, he⟩, hmin⟩ :=
      (Hittable.Hit_nearest r i node (fun q hq => hn q ((hmem q).mp hq)) hadm
        i.Max (le_refl _)).1 rec hrec
    exact ⟨⟨p, (hmem p).mp hp, rec2, h2, he⟩, fun q hq => hmin q ((hmem q).mpr hq)⟩

theorem sqrtExact_one : sqrtExact 1 = 1 := by
  decide!

/-- The roots of a unit sphere on the z axis for the ray from `(0, 0, -5)` along `(0,0,1)`. -/
theorem unitSphere_roots (z : ℚ) :
    sphere.smallRoot sqrtExact { center := ⟨0, 0, z⟩, radius := 1 }
        ⟨⟨0, 0, -5⟩, ⟨0, 0, 1⟩⟩ = z + 4 ∧
    sphere.largeRoot sqrtExact { center := ⟨0, 0, z⟩, radius := 1 }
        ⟨⟨0, 0, -5⟩, ⟨0, 0, 1⟩⟩ = z + 6 := by
  have hd : sphere.discriminant { center := ⟨0, 0, z⟩, radius := 1 }
      ⟨⟨0, 0, -5⟩, ⟨0, 0, 1⟩⟩ = 1 := by
    simp only [sphere.discriminant, Vec3.sub, Vec3.dot, Vec3.lengthSquared]
    ring
  unfold sphere.smallRoot sphere.largeRoot
  rw [hd, sqrtExact_one]
  simp only [Vec3.sub, Vec3.dot, Vec3.lengthSquared]
  constructor <;> ring

/-- A unit sphere on the z axis passes its box test whenever the ray from `(0, 0, -5)` along
`(0,0,1)` hits it within `[0, c]` below `c`: the ray enters the box at `z + 4`, the first root,
and leaves it at `z + 6`. -/
theorem unitSphere_boxSound (z b : ℚ) (hz : 0 ≤ z) :
    (unitSphereAt 0 0 z).boxSound ⟨⟨0, 0, -5⟩, ⟨0, 0, 1⟩⟩ ⟨0, b⟩ := by
  intro c _ rec hrec hlt
  obtain ⟨hsmall, hlarge⟩ := unitSphere_roots z
  have hc : z + 4 < c := by
    simp only [unitSphereAt, sphere.toPrimitive] at hrec
    rw [sphere.hit_eq_some_iff, hsmall, hlarge] at hrec
    obtain ⟨_, ⟨_, _, he⟩ | ⟨_, _, _, he⟩⟩ := hrec
    · rw [he, sphere.recordAt_RayLength] at hlt
      exact hlt
    · rw [he, sphere.recordAt_RayLength] at hlt
      linarith
  have hx : aabb.clipAxis (0 - 1) (0 + 1) 0 0 ⟨0, c⟩ = some ⟨0, c⟩ := by
    unfold aabb.clipAxis
    rw [if_pos rfl, if_pos (by norm_num)]
  have hzc : aabb.clipAxis (z - 1) (z + 1) (-5) 1 ⟨0, c⟩ =
      some ⟨Max.max (z + 4) 0, Min.min (z + 6) c⟩ := by
    unfold aabb.clipAxis
    rw [if_neg (by norm_num)]
    simp only [one_div, inv_one, mul_one]
    rw [if_neg (by norm_num), if_neg (by norm_num)]
    congr 2
    · congr 1; ring
    · congr 1; ring
  simp only [unitSphereAt, sphere.toPrimitive, aabb.hit]
  rw [hx]
  simp only [Option.some_bind]
  rw [hx]
  simp only [Option.some_bind]
  rw [hzc]
  simp only [decide_eq_true_eq]
  rw [max_lt_iff, lt_min_iff, lt_min_iff]
  exact ⟨⟨by linarith, by linarith⟩, by linarith, by linarith⟩

/-- C2 (amended), at a concrete input: unit spheres around `(0,0,0)`, `(0,0,10)` and
`(0,0,20)`, the ray from `(0, 0, -5)` along `(0,0,1)` and the interval `[0, 100]`.  The three
spheres report hits at `RayLength` 4, 14 and 24; the tree reports the hit of the first sphere,
at `RayLength = 4`. -/
theorem bvh_hit_nearest_witness :
    ([unitSphereAt 0 0 0, unitSphereAt 0 0 10, unitSphereAt 0 0 20] ≠ [] ∧
      (∀ p ∈ [unitSphereAt 0 0 0, unitSphereAt 0 0 10, unitSphereAt 0 0 20],
        p.nearestWithin ⟨⟨0, 0, -5⟩, ⟨0, 0, 1⟩⟩ ⟨0, 100⟩) ∧
      (∀ p ∈ [unitSphereAt 0 0 0, unitSphereAt 0 0 10, unitSphereAt 0 0 20],
        p.boxSound ⟨⟨0, 0, -5⟩, ⟨0, 0, 1⟩⟩ ⟨0, 100⟩)) ∧
    queryRayLength [unitSphereAt 0 0 0, unitSphereAt 0 0 10, unitSphereAt 0 0 20]
      ⟨⟨0, 0, -5⟩, ⟨0, 0, 1⟩⟩ ⟨0, 100⟩ = .ok (some 4) ∧
    ∃ node,
      NewBoundingVolumeHierarchy [unitSphereAt 0 0 0, unitSphereAt 0 0 10, unitSphereAt 0 0 20] =
        .ok node ∧
      node.boxesAdmit ⟨⟨0, 0, -5⟩, ⟨0, 0, 1⟩⟩ ⟨0, 100⟩ ∧
      ∀ rec, node.Hit ⟨⟨0, 0, -5⟩, ⟨0, 0, 1⟩⟩ ⟨0, 100⟩ = some rec →
        (∃ p ∈ [unitSphereAt 0 0 0, unitSphereAt 0 0 10, unitSphereAt 0 0 20],
          ∃ rec2, p.Hit ⟨⟨0, 0, -5⟩, ⟨0, 0, 1⟩⟩ ⟨0, 100⟩ = some rec2 ∧
            rec2.RayLength = rec.RayLength) ∧
        (∀ p ∈ [unitSphereAt 0 0 0, unitSphereAt 0 0 10, unitSphereAt 0 0 20],
          ∀ rec2, p.Hit ⟨⟨0, 0, -5⟩, ⟨0, 0, 1⟩⟩ ⟨0, 100⟩ = some rec2 →
            rec.RayLength ≤ rec2.RayLength) := by
  have hn : ∀ p ∈ [unitSphereAt 0 0 0, unitSphereAt 0 0 10, unitSphereAt 0 0 20],
      p.nearestWithin ⟨⟨0, 0, -5⟩, ⟨0, 0, 1⟩⟩ ⟨0, 100⟩ := by
    intro p hp
    simp only [List.mem_cons, List.mem_singleton, List.not_mem_nil, or_false] at hp
    rcases hp with rfl | rfl | rfl <;>
      exact sphere.toPrimitive_nearestWithin sqrtExact _ _ _ (sqrtExact_nonneg _)
  have hb : ∀ p ∈ [unitSphereAt 0 0 0, unitSphereAt 0 0 10, unitSphereAt 0 0 20],
      p.boxSound ⟨⟨0, 0, -5⟩, ⟨0, 0, 1⟩⟩ ⟨0, 100⟩ := by
    intro p hp
    simp only [List.mem_cons, List.mem_singleton, List.not_mem_nil, or_false] at hp
    rcases hp with rfl | rfl | rfl <;>
      exact unitSphere_boxSound _ _ (by norm_num)
  obtain ⟨node, hok, hadm, hmin⟩ :=
    bvh_hit_nearest [unitSphereAt 0 0 0, unitSphereAt 0 0 10, unitSphereAt 0 0 20]
      ⟨⟨0, 0, -5⟩, ⟨0, 0, 1⟩⟩ ⟨0, 100⟩ (by simp) hn
  exact ⟨⟨by simp, hn, hb⟩, by decide!, node, hok, hadm hb, hmin (hadm hb)⟩

/-! ## The tree over a single primitive -/

/-- C7 (counterexample): the unit sphere around `(10,0,0)`, the ray from `(10,0,-5)` along
`(0,0,1)` and the interval `[0, 4]`.  The direct query reports a hit at `RayLength = 4`; the
box of the sphere has the range `[4, 6]`, which only touches the interval, so the tree over
the one-element list reports no hit and differs from the direct query. -/
theorem bvh_singleton_misses_direct_hit :
    ((unitSphereAt 10 0 0).Hit ⟨⟨10, 0, -5⟩, ⟨0, 0, 1⟩⟩ ⟨0, 4⟩).map (fun rec => rec.RayLength) =
      some 4 ∧
    (unitSphereAt 10 0 0).BoundingBox.hit ⟨⟨10, 0, -5⟩, ⟨0, 0, 1⟩⟩ ⟨0, 4⟩ = false ∧
    queryRayLength [unitSphereAt 10 0 0] ⟨⟨10, 0, -5⟩, ⟨0, 0, 1⟩⟩ ⟨0, 4⟩ = .ok none ∧
    ¬ (∀ node, NewBoundingVolumeHierarchy [unitSphereAt 10 0 0] = .ok node →
      node.Hit ⟨⟨10, 0, -5⟩, ⟨0, 0, 1⟩⟩ ⟨0, 4⟩ =
        (unitSphereAt 10 0 0).Hit ⟨⟨10, 0, -5⟩, ⟨0, 0, 1⟩⟩ ⟨0, 4⟩) := by
  have h1 : ((unitSphereAt 10 0 0).Hit ⟨⟨10, 0, -5⟩, ⟨0, 0, 1⟩⟩ ⟨0, 4⟩).map
      (fun rec => rec.RayLength) = some 4 := by decide!
  have h2 : (unitSphereAt 10 0 0).BoundingBox.hit ⟨⟨10, 0, -5⟩, ⟨0, 0, 1⟩⟩ ⟨0, 4⟩ = false := by
    decide!
  have h3 : queryRayLength [unitSphereAt 10 0 0] ⟨⟨10, 0, -5⟩, ⟨0, 0, 1⟩⟩ ⟨0, 4⟩ = .ok none := by
    decide!
  refine ⟨h1, h2, h3, fun h => ?_⟩
  obtain ⟨node, hn, hmap⟩ := queryRayLength_eq_ok _ _ _ _ h3
  rw [h node hn, h1] at hmap
  cases hmap

/-- C7 (amended): for a primitive `p` that, asked again with the upper bound lowered to the
`RayLength` of its hit, does not return a different record (`sphere.hit` is such a primitive),
the tree built from `[p]` returns exactly the result of the direct query `p.Hit(r, i)` when the
box of `p` passes its test over `i`, and no hit when it does not. -/
theorem bvh_singleton_hit (p : Primitive) (r : ray) (i : Interval)
    (hagain : ∀ rec rec2, p.Hit r i = some rec →
      p.Hit r { Min := i.Min, Max := rec.RayLength } = some rec2 → rec2 = rec) :
    ∃ node, NewBoundingVolumeHierarchy [p] = .ok node ∧
      node.Hit r i = if p.BoundingBox.hit r i = true then p.Hit r i else none := by
  refine ⟨.bvh (.prim p) (.prim p) p.BoundingBox, rfl, ?_⟩
  cases hb : p.BoundingBox.hit r i with
  | false =>
    rw [Hittable.Hit_bvh_of_miss _ _ _ r i hb]
    simp
  | true =>
    rw [if_pos rfl]
    cases hl : p.Hit r i with
    | none =>
      rw [Hittable.Hit_bvh_of_left_none _ _ _ r i hb (by simpa [Hittable.Hit] using hl)]
      simpa [Hittable.Hit] using hl
    | some rec =>
      rw [Hittable.Hit_bvh_of_left_some _ _ _ r i rec hb (by simpa [Hittable.Hit] using hl)]
      simp only [Hittable.Hit]
      cases h2 : p.Hit r { Min := i.Min, Max := rec.RayLength } with
      | none => rfl
      | some rec2 => rw [hagain rec rec2 hl h2]

/-- C7 (amended), at a concrete input: the unit sphere around `(10,0,0)`, the ray from
`(10,0,-5)` along `(0,0,1)` and the interval `[0, 100]`; the box test passes and the tree
returns the direct result, a hit at `RayLength = 4`. -/
theorem bvh_singleton_hit_witness :
    (∀ rec rec2, (unitSphereAt 10 0 0).Hit ⟨⟨10, 0, -5⟩, ⟨0, 0, 1⟩⟩ ⟨0, 100⟩ = some rec →
      (unitSphereAt 10 0 0).Hit ⟨⟨10, 0, -5⟩, ⟨0, 0, 1⟩⟩
        { Min := (⟨0, 100⟩ : Interval).Min, Max := rec.RayLength } = some rec2 → rec2 = rec) ∧
    ((unitSphereAt 10 0 0).BoundingBox.hit ⟨⟨10, 0, -5⟩, ⟨0, 0, 1⟩⟩ ⟨0, 100⟩ = true ∧
      ((unitSphereAt 10 0 0).Hit ⟨⟨10, 0, -5⟩, ⟨0, 0, 1⟩⟩ ⟨0, 100⟩).map
        (fun rec => rec.RayLength) = some 4) ∧
    ∃ node, NewBoundingVolumeHierarchy [unitSphereAt 10 0 0] = .ok node ∧
      node.Hit ⟨⟨10, 0, -5⟩, ⟨0, 0, 1⟩⟩ ⟨0, 100⟩ =
        if (unitSphereAt 10 0 0).BoundingBox.hit ⟨⟨10, 0, -5⟩, ⟨0, 0, 1⟩⟩ ⟨0, 100⟩ = true then
          (unitSphereAt 10 0 0).Hit ⟨⟨10, 0, -5⟩, ⟨0, 0, 1⟩⟩ ⟨0, 100⟩
        else none := by
  have hagain : ∀ rec rec2,
      (unitSphereAt 10 0 0).Hit ⟨⟨10, 0, -5⟩, ⟨0, 0, 1⟩⟩ ⟨0, 100⟩ = some rec →
      (unitSphereAt 10 0 0).Hit ⟨⟨10, 0, -5⟩, ⟨0, 0, 1⟩⟩
        { Min := (⟨0, 100⟩ : Interval).Min, Max := rec.RayLength } = some rec2 → rec2 = rec := by
    intro rec rec2 h1 h2
    have h3 := sphere.hit_again sqrtExact _ _ _ _ rec h1
    exact Option.some.inj (h2.symm.trans h3)
  exact ⟨hagain, by decide!,
    bvh_singleton_hit (unitSphereAt 10 0 0) ⟨⟨10, 0, -5⟩, ⟨0, 0, 1⟩⟩ ⟨0, 100⟩ hagain⟩

/-! ## The interval invariant of hit records -/

theorem sphere.hit_within (sqrt : ℚ → ℚ) (s : sphere) (r : ray) (rayTmin rayTmax : ℚ)
    (rec : HitRecord) (h : s.hit sqrt r rayTmin rayTmax = some rec) :
    rayTmin ≤ rec.RayLength ∧ rec.RayLength ≤ rayTmax := by
  rw [sphere.hit_eq_some_iff] at h
  obtain ⟨_, ⟨h1, h2, rfl⟩ | ⟨_, h1, h2, rfl⟩⟩ := h
  · exact ⟨h1, h2⟩
  · exact ⟨h1, h2⟩

theorem sphere.toPrimitive_honoursInterval (sqrt : ℚ → ℚ) (s : sphere) (r : ray) :
    (s.toPrimitive sqrt).honoursInterval r :=
  fun i rec h => sphere.hit_within sqrt s r i.Min i.Max rec h

/-- On a tree whose leaves honour the interval invariant, every reported hit lies within the
interval of the query. -/
theorem Hittable.Hit_within (r : ray) :
    ∀ (t : Hittable), (∀ p ∈ t.leaves, p.honoursInterval r) →
      ∀ (i : Interval) (rec : HitRecord), t.Hit r i = some rec →
        i.Min ≤ rec.RayLength ∧ rec.RayLength ≤ i.Max
  | .prim p, hl, i, rec, h => hl p (by simp [Hittable.leaves]) i rec h
  | .bvh left right bBox, hl, i, rec, h => by
    have ihl := Hittable.Hit_within r left (fun p hp => hl p (by simp [Hittable.leaves, hp]))
    have ihr := Hittable.Hit_within r right (fun p hp => hl p (by simp [Hittable.leaves, hp]))
    cases hb : bBox.hit r i with
    | false =>
      rw [Hittable.Hit_bvh_of_miss left right bBox r i hb] at h
      cases h
    | true =>
      cases hleft : left.Hit r i with
      | none =>
        rw [Hittable.Hit_bvh_of_left_none left right bBox r i hb hleft] at h
        exact ihr i rec h
      | some recL =>
        rw [Hittable.Hit_bvh_of_left_some left right bBox r i recL hb hleft] at h
        obtain ⟨hL1, hL2⟩ := ihl i recL hleft
        cases hright : right.Hit r { Min := i.Min, Max := recL.RayLength } with
        | none =>
          rw [hright] at h
          cases h
          exact ⟨hL1, hL2⟩
        | some recR =>
          rw [hright] at h
          cases h
          obtain ⟨hR1, hR2⟩ := ihr _ rec hright
          exact ⟨hR1, le_trans hR2 hL2⟩

/-! ## Scenarios on the sphere -/

/-- C12: the three-sphere scenario.  For the ray from `(10,0,-5)` along `(0,0,1)` and every
interval that contains `4`, `sphere.hit` on the unit sphere around `(10,0,0)` reports the hit
with `RayLength = 4`, hit point `(10,0,-1)` and outward normal `(0,0,-1)`, and reports no hit
on the unit spheres around `(0,0,0)` and `(20,0,0)`.  The square root enters only through its
value at the discriminant `1`. -/
theorem three_sphere_scenario (sqrt : ℚ → ℚ) (rayTmin rayTmax : ℚ) (hsqrt : sqrt 1 = 1)
    (hmin : rayTmin ≤ 4) (hmax : 4 ≤ rayTmax) :
    sphere.hit sqrt { center := ⟨10, 0, 0⟩, radius := 1 } ⟨⟨10, 0, -5⟩, ⟨0, 0, 1⟩⟩
        rayTmin rayTmax =
      some { HitPoint := ⟨10, 0, -1⟩, Normal := ⟨0, 0, -1⟩, RayLength := 4 } ∧
    sphere.hit sqrt { center := ⟨0, 0, 0⟩, radius := 1 } ⟨⟨10, 0, -5⟩, ⟨0, 0, 1⟩⟩
        rayTmin rayTmax = none ∧
    sphere.hit sqrt { center := ⟨20, 0, 0⟩, radius := 1 } ⟨⟨10, 0, -5⟩, ⟨0, 0, 1⟩⟩
        rayTmin rayTmax = none := by
  refine ⟨?_, ?_, ?_⟩
  · have hd : sphere.discriminant { center := ⟨10, 0, 0⟩, radius := 1 }
        ⟨⟨10, 0, -5⟩, ⟨0, 0, 1⟩⟩ = 1 := by
      simp only [sphere.discriminant, Vec3.sub, Vec3.dot, Vec3.lengthSquared]
      norm_num
    have hroot : sphere.smallRoot sqrt { center := ⟨10, 0, 0⟩, radius := 1 }
        ⟨⟨10, 0, -5⟩, ⟨0, 0, 1⟩⟩ = 4 := by
      unfold sphere.smallRoot
      rw [hd, hsqrt]
      simp only [Vec3.sub, Vec3.dot, Vec3.lengthSquared]
      norm_num
    rw [sphere.hit_eq_some_iff, hd, hroot]
    refine ⟨by norm_num, Or.inl ⟨hmin, hmax, ?_⟩⟩
    simp only [sphere.recordAt, createHitRecord, ray.pointAt, Vec3.add, Vec3.mulS, Vec3.sub,
      Vec3.divS]
    norm_num
  · have hd : sphere.discriminant { center := ⟨0, 0, 0⟩, radius := 1 }
        ⟨⟨10, 0, -5⟩, ⟨0, 0, 1⟩⟩ < 0 := by
      simp only [sphere.discriminant, Vec3.sub, Vec3.dot, Vec3.lengthSquared]
      norm_num
    rw [sphere.hit_eq, if_pos hd]
  · have hd : sphere.discriminant { center := ⟨20, 0, 0⟩, radius := 1 }
        ⟨⟨10, 0, -5⟩, ⟨0, 0, 1⟩⟩ < 0 := by
      simp only [sphere.discriminant, Vec3.sub, Vec3.dot, Vec3.lengthSquared]
      norm_num
    rw [sphere.hit_eq, if_pos hd]

/-- C12, at a concrete input: the square root that is exact on squares and the interval
`[0, 100]`; the tree over the three spheres reports the same hit, at `RayLength = 4`. -/
theorem three_sphere_scenario_witness :
    (sqrtExact 1 = 1 ∧ (0 : ℚ) ≤ 4 ∧ (4 : ℚ) ≤ 100) ∧
    queryRayLength [unitSphereAt 0 0 0, unitSphereAt 10 0 0, unitSphereAt 20 0 0]
      ⟨⟨10, 0, -5⟩, ⟨0, 0, 1⟩⟩ ⟨0, 100⟩ = .ok (some 4) ∧
    (sphere.hit sqrtExact { center := ⟨10, 0, 0⟩, radius := 1 } ⟨⟨10, 0, -5⟩, ⟨0, 0, 1⟩⟩ 0 100 =
        some { HitPoint := ⟨10, 0, -1⟩, Normal := ⟨0, 0, -1⟩, RayLength := 4 } ∧
      sphere.hit sqrtExact { center := ⟨0, 0, 0⟩, radius := 1 } ⟨⟨10, 0, -5⟩, ⟨0, 0, 1⟩⟩
        0 100 = none ∧
      sphere.hit sqrtExact { center := ⟨20, 0, 0⟩, radius := 1 } ⟨⟨10, 0, -5⟩, ⟨0, 0, 1⟩⟩
        0 100 = none) :=
  ⟨⟨by decide!, by norm_num, by norm_num⟩, by decide!,
    three_sphere_scenario sqrtExact 0 100 (by decide!) (by norm_num) (by norm_num)⟩

/-! ## The two-primitive case and the query protocol -/

/-- C16: on a range of exactly two primitives `createBvh` returns the node whose left child is
`list[start]` and whose right child is `list[start+1]`, with the union of their two boxes as
its box, and leaves the list as it was. -/
theorem createBvh_two (fuel : Nat) (list : List Primitive) (start end_ : Nat)
    (hend : end_ = start + 2) (hlen : end_ ≤ list.length) :
    ∃ left right, list[start]? = some left ∧ list[start + 1]? = some right ∧
      createBvh (fuel + 1) list start end_ =
        .ok (list, .bvh (.prim left) (.prim right)
          (combineAabbs left.BoundingBox right.BoundingBox)) := by
  subst hend
  have h0 : start < list.length := by omega
  have h1 : start + 1 < list.length := by omega
  refine ⟨list[start], list[start + 1], List.getElem?_eq_getElem h0,
    List.getElem?_eq_getElem h1, ?_⟩
  unfold createBvh
  have hnum : start + 2 - start = 2 := by omega
  simp only [hnum]
  rw [if_pos trivial, List.getElem?_eq_getElem h0, List.getElem?_eq_getElem h1,
    if_neg (by decide)]

/-- C16, at a concrete input: the range `[1, 3)` of four unit spheres. -/
theorem createBvh_two_witness :
    ((3 : Nat) = 1 + 2 ∧
      3 ≤ [unitSphereAt 0 0 0, unitSphereAt 30 0 0, unitSphereAt 10 0 0,
        unitSphereAt 20 0 0].length) ∧
    ∃ left right,
      [unitSphereAt 0 0 0, unitSphereAt 30 0 0, unitSphereAt 10 0 0,
        unitSphereAt 20 0 0][1]? = some left ∧
      [unitSphereAt 0 0 0, unitSphereAt 30 0 0, unitSphereAt 10 0 0,
        unitSphereAt 20 0 0][1 + 1]? = some right ∧
      createBvh (0 + 1) [unitSphereAt 0 0 0, unitSphereAt 30 0 0, unitSphereAt 10 0 0,
        unitSphereAt 20 0 0] 1 3 =
        .ok ([unitSphereAt 0 0 0, unitSphereAt 30 0 0, unitSphereAt 10 0 0,
            unitSphereAt 20 0 0],
          .bvh (.prim left) (.prim right)
            (combineAabbs left.BoundingBox right.BoundingBox)) :=
  ⟨⟨by decide, by decide⟩,
    createBvh_two 0 [unitSphereAt 0 0 0, unitSphereAt 30 0 0, unitSphereAt 10 0 0,
      unitSphereAt 20 0 0] 1 3 (by decide) (by decide)⟩

/-- C17: the result of `bvh.Hit`.  When the node's own box is missed over the interval, the
result is no hit, whatever the children would report.  Otherwise the right child is queried
over `[Min, left.RayLength]` when the left child hit and over the original interval when it did
not (the lower bound is the original one in both cases), the hit flag is
`leftHit OR rightHit`, and the record is the one of the right child when it hit and the one of
the left child otherwise. -/
theorem bvh_Hit_protocol (left right : Hittable) (bBox : aabb) (r : ray) (i : Interval) :
    (bBox.hit r i = false → (Hittable.bvh left right bBox).Hit r i = none) ∧
    (bBox.hit r i = true →
      ∃ narrowed : Interval,
        (∀ rec, left.Hit r i = some rec → narrowed = { Min := i.Min, Max := rec.RayLength }) ∧
        (left.Hit r i = none → narrowed = i) ∧
        narrowed.Min = i.Min ∧
        ((Hittable.bvh left right bBox).Hit r i).isSome =
          ((left.Hit r i).isSome || (right.Hit r narrowed).isSome) ∧
        (Hittable.bvh left right bBox).Hit r i =
          if (right.Hit r narrowed).isSome then right.Hit r narrowed else left.Hit r i) := by
  refine ⟨Hittable.Hit_bvh_of_miss left right bBox r i, fun hb => ?_⟩
  cases hl : left.Hit r i with
  | none =>
    refine ⟨i, fun rec h => (by cases h), fun _ => rfl, rfl, ?_, ?_⟩
    · rw [Hittable.Hit_bvh_of_left_none left right bBox r i hb hl]
      simp
    · rw [Hittable.Hit_bvh_of_left_none left right bBox r i hb hl]
      cases right.Hit r i <;> rfl
  | some recL =>
    refine ⟨{ Min := i.Min, Max := recL.RayLength },
      fun rec h => (by cases h; rfl), fun h => (by cases h), rfl, ?_, ?_⟩
    · rw [Hittable.Hit_bvh_of_left_some left right bBox r i recL hb hl]
      cases right.Hit r { Min := i.Min, Max := recL.RayLength } <;> rfl
    · rw [Hittable.Hit_bvh_of_left_some left right bBox r i recL hb hl]
      cases right.Hit r { Min := i.Min, Max := recL.RayLength } <;> rfl

/-! ## Narrowing of the interval -/

/-- C18 (counterexample): the node built from the one-element list with the unit sphere around
`(10,0,0)`, the ray from `(10,0,-5)` along `(0,0,1)` and the interval `[0, 100]`.  The left
child reports a hit at `RayLength = 4`; the right child, queried over the narrowed interval
`[0, 4]`, reports a hit at `RayLength = 4` as well, which is not strictly smaller. -/
theorem bvh_right_hit_not_strictly_closer :
    NewBoundingVolumeHierarchy [unitSphereAt 10 0 0] =
      .ok (.bvh (.prim (unitSphereAt 10 0 0)) (.prim (unitSphereAt 10 0 0))
        (unitSphereAt 10 0 0).BoundingBox) ∧
    (Hittable.prim (unitSphereAt 10 0 0)).Hit ⟨⟨10, 0, -5⟩, ⟨0, 0, 1⟩⟩ ⟨0, 100⟩ =
      some ⟨⟨10, 0, -1⟩, ⟨0, 0, -1⟩, 4⟩ ∧
    (Hittable.prim (unitSphereAt 10 0 0)).Hit ⟨⟨10, 0, -5⟩, ⟨0, 0, 1⟩⟩ ⟨0, 4⟩ =
      some ⟨⟨10, 0, -1⟩, ⟨0, 0, -1⟩, 4⟩ ∧
    ¬ (∀ recL recR : HitRecord,
      (Hittable.prim (unitSphereAt 10 0 0)).Hit ⟨⟨10, 0, -5⟩, ⟨0, 0, 1⟩⟩ ⟨0, 100⟩ = some recL →
      (Hittable.prim (unitSphereAt 10 0 0)).Hit ⟨⟨10, 0, -5⟩, ⟨0, 0, 1⟩⟩
        { Min := (⟨0, 100⟩ : Interval).Min, Max := recL.RayLength } = some recR →
      recR.RayLength < recL.RayLength) := by
  have h1 : (Hittable.prim (unitSphereAt 10 0 0)).Hit ⟨⟨10, 0, -5⟩, ⟨0, 0, 1⟩⟩ ⟨0, 100⟩ =
      some ⟨⟨10, 0, -1⟩, ⟨0, 0, -1⟩, 4⟩ := by decide!
  have h2 : (Hittable.prim (unitSphereAt 10 0 0)).Hit ⟨⟨10, 0, -5⟩, ⟨0, 0, 1⟩⟩ ⟨0, 4⟩ =
      some ⟨⟨10, 0, -1⟩, ⟨0, 0, -1⟩, 4⟩ := by decide!
  refine ⟨rfl, h1, h2, fun h => ?_⟩
  have := h _ _ h1 h2
  exact absurd this (lt_irrefl _)

/-- C18 (amended): for every node, ray and interval, when the left child reports a hit and the
right child, queried over the narrowed interval, reports a hit too, and the primitives beneath
the right child honour the interval invariant, the `RayLength` of the right hit is at least
the lower bound of the interval and at most the `RayLength` of the left hit; when the node's
box is hit, the node returns the record of the right child. -/
theorem bvh_narrowing_le (left right : Hittable) (bBox : aabb) (r : ray) (i : Interval)
    (recL recR : HitRecord) (hleaves : ∀ p ∈ right.leaves, p.honoursInterval r)
    (hl : left.Hit r i = some recL)
    (hr : right.Hit r { Min := i.Min, Max := recL.RayLength } = some recR) :
    i.Min ≤ recR.RayLength ∧ recR.RayLength ≤ recL.RayLength ∧
      (bBox.hit r i = true → (Hittable.bvh left right bBox).Hit r i = some recR) := by
  obtain ⟨h1, h2⟩ := Hittable.Hit_within r right hleaves _ recR hr
  refine ⟨h1, h2, fun hb => ?_⟩
  rw [Hittable.Hit_bvh_of_left_some left right bBox r i recL hb hl, hr]

/-- C18 (amended), at a concrete input: the node over the unit sphere around `(10,0,0)`, the
ray from `(10,0,-5)` along `(0,0,1)` and the interval `[0, 100]`; both children report the hit
at `RayLength = 4`. -/
theorem bvh_narrowing_le_witness :
    ((∀ p ∈ (Hittable.prim (unitSphereAt 10 0 0)).leaves,
        p.honoursInterval ⟨⟨10, 0, -5⟩, ⟨0, 0, 1⟩⟩) ∧
      (Hittable.prim (unitSphereAt 10 0 0)).Hit ⟨⟨10, 0, -5⟩, ⟨0, 0, 1⟩⟩ ⟨0, 100⟩ =
        some ⟨⟨10, 0, -1⟩, ⟨0, 0, -1⟩, 4⟩ ∧
      (Hittable.prim (unitSphereAt 10 0 0)).Hit ⟨⟨10, 0, -5⟩, ⟨0, 0, 1⟩⟩
        { Min := (⟨0, 100⟩ : Interval).Min,
          Max := (⟨⟨10, 0, -1⟩, ⟨0, 0, -1⟩, 4⟩ : HitRecord).RayLength } =
        some ⟨⟨10, 0, -1⟩, ⟨0, 0, -1⟩, 4⟩) ∧
    ((⟨0, 100⟩ : Interval).Min ≤ (⟨⟨10, 0, -1⟩, ⟨0, 0, -1⟩, 4⟩ : HitRecord).RayLength ∧
      (⟨⟨10, 0, -1⟩, ⟨0, 0, -1⟩, 4⟩ : HitRecord).RayLength ≤
        (⟨⟨10, 0, -1⟩, ⟨0, 0, -1⟩, 4⟩ : HitRecord).RayLength ∧
      ((unitSphereAt 10 0 0).BoundingBox.hit ⟨⟨10, 0, -5⟩, ⟨0, 0, 1⟩⟩ ⟨0, 100⟩ = true →
        (Hittable.bvh (.prim (unitSphereAt 10 0 0)) (.prim (unitSphereAt 10 0 0))
          (unitSphereAt 10 0 0).BoundingBox).Hit ⟨⟨10, 0, -5⟩, ⟨0, 0, 1⟩⟩ ⟨0, 100⟩ =
          some ⟨⟨10, 0, -1⟩, ⟨0, 0, -1⟩, 4⟩)) := by
  have hleaves : ∀ p ∈ (Hittable.prim (unitSphereAt 10 0 0)).leaves,
      p.honoursInterval ⟨⟨10, 0, -5⟩, ⟨0, 0, 1⟩⟩ := by
    intro p hp
    simp only [Hittable.leaves, List.mem_singleton] at hp
    subst hp
    exact sphere.toPrimitive_honoursInterval sqrtExact _ _
  have hl : (Hittable.prim (unitSphereAt 10 0 0)).Hit ⟨⟨10, 0, -5⟩, ⟨0, 0, 1⟩⟩ ⟨0, 100⟩ =
      some ⟨⟨10, 0, -1⟩, ⟨0, 0, -1⟩, 4⟩ := by decide!
  have hr : (Hittable.prim (unitSphereAt 10 0 0)).Hit ⟨⟨10, 0, -5⟩, ⟨0, 0, 1⟩⟩
      { Min := (⟨0, 100⟩ : Interval).Min,
        Max := (⟨⟨10, 0, -1⟩, ⟨0, 0, -1⟩, 4⟩ : HitRecord).RayLength } =
      some ⟨⟨10, 0, -1⟩, ⟨0, 0, -1⟩, 4⟩ := by decide!
  exact ⟨⟨hleaves, hl, hr⟩,
    bvh_narrowing_le (.prim (unitSphereAt 10 0 0)) (.prim (unitSphereAt 10 0 0))
      (unitSphereAt 10 0 0).BoundingBox ⟨⟨10, 0, -5⟩, ⟨0, 0, 1⟩⟩ ⟨0, 100⟩ _ _ hleaves hl hr⟩

/-! ## The postcondition of the partition -/

theorem sortHittablesByCenter.loop_length (center : ℚ) (f : Primitive → ℚ) :
    ∀ (fuel : Nat) (list : List Primitive) (i jSucc : Nat),
      (sortHittablesByCenter.loop center f fuel list i jSucc).1.length = list.length :=
  fun fuel list i jSucc => (sortHittablesByCenter.loop_perm center f fuel list i jSucc).length_eq

/-- The invariant of the partition loop: the elements before `i` have keys below the pivot,
the elements from `jSucc` on have keys not below it; at the end the two regions meet. -/
theorem sortHittablesByCenter.loop_partitioned (center : ℚ) (f : Primitive → ℚ) :
    ∀ (fuel : Nat) (list : List Primitive) (i jSucc : Nat),
      i ≤ jSucc → jSucc ≤ list.length → jSucc ≤ i + fuel →
      (∀ k x, k < i → list[k]? = some x → f x < center) →
      (∀ k x, jSucc ≤ k → list[k]? = some x → ¬ f x < center) →
      (∀ k x, k < (sortHittablesByCenter.loop center f fuel list i jSucc).2 →
        (sortHittablesByCenter.loop center f fuel list i jSucc).1[k]? = some x →
          f x < center) ∧
      (∀ k x, (sortHittablesByCenter.loop center f fuel list i jSucc).2 ≤ k →
        (sortHittablesByCenter.loop center f fuel list i jSucc).1[k]? = some x →
          ¬ f x < center)
  | 0, list, i, jSucc, hij, _, hfuel, hlow, hhigh => by
    have e : i = jSucc := by omega
    subst e
    simp only [sortHittablesByCenter.loop]
    exact ⟨hlow, hhigh⟩
  | fuel + 1, list, i, jSucc, hij, hlen, hfuel, hlow, hhigh => by
    unfold sortHittablesByCenter.loop
    by_cases hlt : i < jSucc
    · rw [if_pos hlt]
      have hi : i < list.length := by omega
      have hj : jSucc - 1 < list.length := by omega
      rw [List.getElem?_eq_getElem hi, List.getElem?_eq_getElem hj]
      dsimp only
      by_cases hk : f list[i] < center
      · rw [if_pos hk]
        apply sortHittablesByCenter.loop_partitioned center f fuel list (i + 1) jSucc
          (by omega) hlen (by omega) _ hhigh
        intro k x hk1 hx
        by_cases hki : k = i
        · subst hki
          rw [List.getElem?_eq_getElem hi] at hx
          cases hx
          exact hk
        · exact hlow k x (by omega) hx
      · rw [if_neg hk]
        apply sortHittablesByCenter.loop_partitioned center f fuel _ i (jSucc - 1)
          (by omega) (by simp only [List.length_set]; omega) (by omega)
        · intro k x hk1 hx
          rw [List.getElem?_set_ne (by omega), List.getElem?_set_ne (by omega)] at hx
          exact hlow k x hk1 hx
        · intro k x hk1 hx
          by_cases hkj : k = jSucc - 1
          · subst hkj
            rw [List.getElem?_set_self (by simp only [List.length_set]; omega)] at hx
            cases hx
            exact hk
          · rw [List.getElem?_set_ne (by omega), List.getElem?_set_ne (by omega)] at hx
            exact hhigh k x (by omega) hx
    · rw [if_neg hlt]
      have e : i = jSucc := by omega
      subst e
      exact ⟨hlow, hhigh⟩

theorem countP_take_of_forall {α : Type} (p : α → Bool) :
    ∀ (l : List α) (m : Nat), m ≤ l.length → (∀ k x, k < m → l[k]? = some x → p x = true) →
      (l.take m).countP p = m
  | _, 0, _, _ => by simp
  | [], m + 1, h, _ => by simp at h
  | a :: l, m + 1, h, hp => by
    have ha : p a = true := hp 0 a (by omega) (by simp)
    have ih := countP_take_of_forall p l m (by simpa using h)
      (fun k x hk hx => hp (k + 1) x (by omega) (by simpa using hx))
    simp [List.take_succ_cons, List.countP_cons, ha, ih]

theorem countP_drop_of_forall {α : Type} (p : α → Bool) :
    ∀ (l : List α) (m : Nat), (∀ k x, m ≤ k → l[k]? = some x → p x = false) →
      (l.drop m).countP p = 0
  | [], m, _ => by simp
  | a :: l, 0, hp => by
    rw [List.drop_zero, List.countP_eq_zero]
    intro x hx
    obtain ⟨k, hk⟩ := List.getElem?_of_mem hx
    simp [hp k x (by omega) hk]
  | a :: l, m + 1, hp => by
    rw [List.drop_succ_cons]
    exact countP_drop_of_forall p l m
      (fun k x hk hx => hp (k + 1) x (by omega) (by simpa using hx))

theorem sortHittablesByCenter_regions (list : List Primitive) (center : ℚ)
    (f : Primitive → ℚ) :
    (∀ k x, k < (sortHittablesByCenter list center f).2 →
      (sortHittablesByCenter list center f).1[k]? = some x → f x < center) ∧
    (∀ k x, (sortHittablesByCenter list center f).2 ≤ k →
      (sortHittablesByCenter list center f).1[k]? = some x → ¬ f x < center) :=
  sortHittablesByCenter.loop_partitioned center f list.length list 0 list.length
    (Nat.zero_le _) (Nat.le_refl _) (by omega)
    (fun k x hk _ => absurd hk (Nat.not_lt_zero k))
    (fun k x hk hx => by
      have := (List.getElem?_eq_some.mp hx).1
      omega)

theorem sortHittablesByCenter_eq_countP (list : List Primitive) (center : ℚ)
    (f : Primitive → ℚ) :
    (sortHittablesByCenter list center f).2 =
      list.countP (fun h => decide (f h < center)) := by
  have hle := sortHittablesByCenter_le list center f
  have hperm := sortHittablesByCenter_perm list center f
  obtain ⟨hlow, hhigh⟩ := sortHittablesByCenter_regions list center f
  rw [← hperm.countP_eq, ← List.take_append_drop (sortHittablesByCenter list center f).2
    (sortHittablesByCenter list center f).1, List.countP_append]
  have hlen : (sortHittablesByCenter list center f).2 ≤
      (sortHittablesByCenter list center f).1.length := by
    rw [hperm.length_eq]; exact hle
  rw [countP_take_of_forall _ _ _ hlen (fun k x hk hx => by simpa using hlow k x hk hx),
    countP_drop_of_forall _ _ _ (fun k x hk hx => by simpa using hhigh k x hk hx)]
  simp

/-- C14: the postcondition of `sortHittablesByCenter`.  The returned index `m` is at most the
length of the slice; afterwards every element at an index below `m` has its key strictly
below the pivot and every element at an index from `m` on has not; `m` is the number of
elements whose key is below the pivot; and the slice is a permutation of what it was. -/
theorem sortHittablesByCenter_partition (list : List Primitive) (center : ℚ)
    (f : Primitive → ℚ) :
    (sortHittablesByCenter list center f).2 ≤ list.length ∧
    (∀ k x, k < (sortHittablesByCenter list center f).2 →
      (sortHittablesByCenter list center f).1[k]? = some x → f x < center) ∧
    (∀ k x, (sortHittablesByCenter list center f).2 ≤ k →
      (sortHittablesByCenter list center f).1[k]? = some x → ¬ f x < center) ∧
    (sortHittablesByCenter list center f).2 =
      list.countP (fun h => decide (f h < center)) ∧
    (sortHittablesByCenter list center f).1.Perm list := by
  obtain ⟨hlow, hhigh⟩ := sortHittablesByCenter_regions list center f
  exact ⟨sortHittablesByCenter_le list center f, hlow, hhigh,
    sortHittablesByCenter_eq_countP list center f, sortHittablesByCenter_perm list center f⟩

/-! ## The axis of the partition -/

theorem sortHittablesSliceByMostSpreadAxis_axis (A S B : List Primitive) :
    sortHittablesSliceByMostSpreadAxis (A ++ S ++ B) A.length (A.length + S.length) =
      .ok (A ++ (sortHittablesByCenter S (centerMidpoint S (mostSpreadAxis S))
            (mostSpreadAxis S).key).1 ++ B,
        (sortHittablesByCenter S (centerMidpoint S (mostSpreadAxis S))
            (mostSpreadAxis S).key).2 + A.length) := by
  have hcond : A.length ≤ A.length + S.length ∧
      A.length + S.length ≤ (A ++ S ++ B).length := by
    simp [List.length_append]
  have hslice : ((A ++ S ++ B).drop A.length).take (A.length + S.length - A.length) = S := by
    simp [List.append_assoc]
  have htake : (A ++ S ++ B).take A.length = A := by
    simp [List.append_assoc]
  have hdrop : (A ++ S ++ B).drop (A.length + S.length) = B := by
    rw [← List.length_append, List.drop_left]
  have hx : (fun h : Primitive => h.Center.X) = Axis.key .x := rfl
  have hy : (fun h : Primitive => h.Center.Y) = Axis.key .y := rfl
  have hz : (fun h : Primitive => h.Center.Z) = Axis.key .z := rfl
  unfold sortHittablesSliceByMostSpreadAxis
  rw [if_pos hcond, hslice, htake, hdrop, hx, hy, hz]
  dsimp only
  unfold mostSpreadAxis centerSpread
  by_cases c1 : (boundingBoxSpread S (Axis.key .x)).1 ≥ (boundingBoxSpread S (Axis.key .y)).1 ∧
      (boundingBoxSpread S (Axis.key .x)).1 ≥ (boundingBoxSpread S (Axis.key .z)).1
  · rw [if_pos c1, if_pos c1]
    rfl
  · rw [if_neg c1, if_neg c1]
    by_cases c2 : (boundingBoxSpread S (Axis.key .y)).1 ≥ (boundingBoxSpread S (Axis.key .x)).1 ∧
        (boundingBoxSpread S (Axis.key .y)).1 ≥ (boundingBoxSpread S (Axis.key .z)).1
    · rw [if_pos c2, if_pos c2]
      rfl
    · rw [if_neg c2, if_neg c2]
      rfl

theorem mostSpreadAxis_max (S : List Primitive) (b : Axis) :
    centerSpread S b ≤ centerSpread S (mostSpreadAxis S) := by
  unfold mostSpreadAxis
  by_cases c1 : centerSpread S .x ≥ centerSpread S .y ∧ centerSpread S .x ≥ centerSpread S .z
  · rw [if_pos c1]
    cases b
    · exact le_refl _
    · exact c1.1
    · exact c1.2
  · rw [if_neg c1]
    by_cases c2 : centerSpread S .y ≥ centerSpread S .x ∧
        centerSpread S .y ≥ centerSpread S .z
    · rw [if_pos c2]
      cases b
      · exact c2.1
      · exact le_refl _
      · exact c2.2
    · rw [if_neg c2]
      rw [not_and_or, not_le, not_le] at c1 c2
      cases b
      · rcases c1 with h | h
        · rcases c2 with g | g
          · exact absurd (lt_trans h g) (lt_irrefl _)
          · exact le_of_lt (lt_trans h g)
        · exact le_of_lt h
      · rcases c2 with g | g
        · rcases c1 with h | h
          · exact absurd (lt_trans h g) (lt_irrefl _)
          · exact le_of_lt (lt_trans g h)
        · exact le_of_lt g
      · exact le_refl _

/-! ## Leaf coverage -/

/-- C19: leaf coverage.  The tree built from a non-empty list is composed, in the sense of
`BuiltFrom`, over the list `S2` that `createBvh` leaves behind, a permutation of the input:
every element of `S2` sits in exactly one bottom-level node, as both children when the node
holds a single primitive and as one of the two children otherwise, and the inner nodes
concatenate the parts of their children.  Hence the primitives at the leaves of the tree are
exactly the primitives of the list. -/
theorem NewBoundingVolumeHierarchy_leaf_coverage (list : List Primitive) (hne : list ≠ []) :
    ∃ (S2 : List Primitive) (node : Hittable),
      createBvh list.length list 0 list.length = .ok (S2, node) ∧
      NewBoundingVolumeHierarchy list = .ok node ∧ S2.Perm list ∧ BuiltFrom S2 node ∧
      (∀ p, p ∈ node.leaves ↔ p ∈ list) := by
  have hpos : 0 < list.length := List.length_pos.mpr hne
  obtain ⟨S2, node, hrun, hperm, hbuilt⟩ :=
    createBvh_range list.length list 0 list.length hpos (Nat.le_refl _) (by omega)
  simp only [List.take_zero, List.nil_append, List.drop_length, List.append_nil,
    List.drop_zero, Nat.sub_zero, List.take_length] at hrun hperm
  refine ⟨S2, node, hrun, ?_, hperm, hbuilt,
    fun p => (hbuilt.mem_leaves p).trans hperm.mem_iff⟩
  unfold NewBoundingVolumeHierarchy
  rw [if_neg (by omega), hrun]

/-- C19, at a concrete input: three unit spheres along the x axis. -/
theorem NewBoundingVolumeHierarchy_leaf_coverage_witness :
    [unitSphereAt 0 0 0, unitSphereAt 20 0 0, unitSphereAt 10 0 0] ≠ [] ∧
    ∃ (S2 : List Primitive) (node : Hittable),
      createBvh [unitSphereAt 0 0 0, unitSphereAt 20 0 0, unitSphereAt 10 0 0].length
        [unitSphereAt 0 0 0, unitSphereAt 20 0 0, unitSphereAt 10 0 0] 0
        [unitSphereAt 0 0 0, unitSphereAt 20 0 0, unitSphereAt 10 0 0].length =
          .ok (S2, node) ∧
      NewBoundingVolumeHierarchy [unitSphereAt 0 0 0, unitSphereAt 20 0 0,
        unitSphereAt 10 0 0] = .ok node ∧
      S2.Perm [unitSphereAt 0 0 0, unitSphereAt 20 0 0, unitSphereAt 10 0 0] ∧
      BuiltFrom S2 node ∧
      (∀ p, p ∈ node.leaves ↔
        p ∈ [unitSphereAt 0 0 0, unitSphereAt 20 0 0, unitSphereAt 10 0 0]) :=
  ⟨by simp,
    NewBoundingVolumeHierarchy_leaf_coverage
      [unitSphereAt 0 0 0, unitSphereAt 20 0 0, unitSphereAt 10 0 0] (by simp)⟩

/-! ## Minimum and maximum of the centroids -/

theorem boundingBoxSpread_foldl_spec (f : Primitive → ℚ) :
    ∀ (list : List Primitive) (mn mx : ℚ),
      ∃ mn2 mx2,
        list.foldl
          (fun (acc : Option (ℚ × ℚ)) h =>
            match acc with
            | none => some (f h, f h)
            | some (min, max) => some (Min.min min (f h), Max.max max (f h)))
          (some (mn, mx)) = some (mn2, mx2) ∧
        mn2 ≤ mn ∧ mx ≤ mx2 ∧
        (∀ p ∈ list, mn2 ≤ f p ∧ f p ≤ mx2) ∧
        (mn2 = mn ∨ ∃ p ∈ list, f p = mn2) ∧
        (mx2 = mx ∨ ∃ p ∈ list, f p = mx2)
  | [], mn, mx => ⟨mn, mx, rfl, le_refl _, le_refl _, fun p hp => by simp at hp,
      Or.inl rfl, Or.inl rfl⟩
  | h :: t, mn, mx => by
    obtain ⟨mn2, mx2, hfold, hmn, hmx, hall, hamin, hamax⟩ :=
      boundingBoxSpread_foldl_spec f t (Min.min mn (f h)) (Max.max mx (f h))
    refine ⟨mn2, mx2, ?_, le_trans hmn (min_le_left _ _), le_trans (le_max_left _ _) hmx,
      ?_, ?_, ?_⟩
    · simpa only [List.foldl_cons] using hfold
    · intro p hp
      rcases List.mem_cons.mp hp with rfl | hp
      · exact ⟨le_trans hmn (min_le_right _ _), le_trans (le_max_right _ _) hmx⟩
      · exact hall p hp
    · rcases hamin with e | ⟨p, hp, e⟩
      · rcases min_choice mn (f h) with c | c
        · exact Or.inl (e.trans c)
        · exact Or.inr ⟨h, List.mem_cons_self _ _, (e.trans c).symm⟩
      · exact Or.inr ⟨p, List.mem_cons_of_mem _ hp, e⟩
    · rcases hamax with e | ⟨p, hp, e⟩
      · rcases max_choice mx (f h) with c | c
        · exact Or.inl (e.trans c)
        · exact Or.inr ⟨h, List.mem_cons_self _ _, (e.trans c).symm⟩
      · exact Or.inr ⟨p, List.mem_cons_of_mem _ hp, e⟩

/-- On a non-empty slice `boundingBoxSpread` returns `max - min` and `(min + max) / 2` for the
least and the greatest key of the slice, both of which are keys of elements. -/
theorem boundingBoxSpread_spec (list : List Primitive) (f : Primitive → ℚ) (hne : list ≠ []) :
    ∃ mn mx, boundingBoxSpread list f = (mx - mn, (mn + mx) * (1 / 2)) ∧
      (∃ p ∈ list, f p = mn) ∧ (∃ p ∈ list, f p = mx) ∧
      (∀ p ∈ list, mn ≤ f p ∧ f p ≤ mx) := by
  cases list with
  | nil => exact absurd rfl hne
  | cons h t =>
    obtain ⟨mn, mx, hfold, hmn, hmx, hall, hamin, hamax⟩ :=
      boundingBoxSpread_foldl_spec f t (f h) (f h)
    refine ⟨mn, mx, ?_, ?_, ?_, ?_⟩
    · unfold boundingBoxSpread
      simp only [List.foldl_cons]
      rw [hfold]
    · rcases hamin with e | ⟨p, hp, e⟩
      · exact ⟨h, List.mem_cons_self _ _, e.symm⟩
      · exact ⟨p, List.mem_cons_of_mem _ hp, e⟩
    · rcases hamax with e | ⟨p, hp, e⟩
      · exact ⟨h, List.mem_cons_self _ _, e.symm⟩
      · exact ⟨p, List.mem_cons_of_mem _ hp, e⟩
    · intro p hp
      rcases List.mem_cons.mp hp with rfl | hp
      · exact ⟨hmn, hmx⟩
      · exact hall p hp

/-! ## When the fallback of the split is taken -/

/-- With a positive spread along an axis, the midpoint lies strictly between the least and the
greatest key, and the partition around it leaves both sides non-empty. -/
theorem partition_strict_of_spread_pos (S : List Primitive) (a : Axis) (hne : S ≠ [])
    (hpos : 0 < centerSpread S a) :
    (∃ p ∈ S, ∃ q ∈ S, (∀ x ∈ S, a.key p ≤ a.key x ∧ a.key x ≤ a.key q) ∧
      a.key p < centerMidpoint S a ∧ centerMidpoint S a < a.key q) ∧
    0 < (sortHittablesByCenter S (centerMidpoint S a) a.key).2 ∧
    (sortHittablesByCenter S (centerMidpoint S a) a.key).2 < S.length := by
  obtain ⟨mn, mx, hspec, ⟨p, hp, hpmn⟩, ⟨q, hq, hqmx⟩, hall⟩ :=
    boundingBoxSpread_spec S a.key hne
  have hs : centerSpread S a = mx - mn := by
    unfold centerSpread; rw [hspec]
  have hm : centerMidpoint S a = (mn + mx) * (1 / 2) := by
    unfold centerMidpoint; rw [hspec]
  rw [hs] at hpos
  have hlow : a.key p < centerMidpoint S a := by rw [hm, hpmn]; linarith
  have hhigh : centerMidpoint S a < a.key q := by rw [hm, hqmx]; linarith
  refine ⟨⟨p, hp, q, hq, fun x hx => ?_, hlow, hhigh⟩, ?_, ?_⟩
  · rw [hpmn, hqmx]
    exact hall x hx
  · rw [sortHittablesByCenter_eq_countP]
    exact List.countP_pos_iff.mpr ⟨p, hp, by simpa using hlow⟩
  · rw [sortHittablesByCenter_eq_countP]
    apply lt_of_le_of_ne (List.countP_le_length _)
    intro h
    have := List.countP_eq_length.mp h q hq
    simp only [decide_eq_true_eq] at this
    exact absurd this (not_lt.mpr (le_of_lt hhigh))

/-- A spread that is not positive means that all keys along the axis are equal. -/
theorem keys_equal_of_spread_nonpos (S : List Primitive) (a : Axis) (hne : S ≠ [])
    (h : centerSpread S a ≤ 0) : ∀ p ∈ S, ∀ q ∈ S, a.key p = a.key q := by
  obtain ⟨mn, mx, hspec, _, _, hall⟩ := boundingBoxSpread_spec S a.key hne
  have hs : centerSpread S a = mx - mn := by
    unfold centerSpread; rw [hspec]
  rw [hs] at h
  intro p hp q hq
  have h1 := hall p hp
  have h2 := hall q hq
  exact le_antisymm (by linarith [h1.2, h2.1]) (by linarith [h2.2, h1.1])

theorem fallback_iff_append (A S B : List Primitive) (h3 : 3 ≤ S.length) :
    ∃ list1 mid0,
      sortHittablesSliceByMostSpreadAxis (A ++ S ++ B) A.length (A.length + S.length) =
        .ok (list1, mid0) ∧
      (0 < centerSpread S (mostSpreadAxis S) →
        A.length < mid0 ∧ mid0 < A.length + S.length ∧
        createBvh.split (A ++ S ++ B) A.length (A.length + S.length) = .ok (list1, mid0)) ∧
      ((mid0 = A.length ∨ mid0 = A.length + S.length) ↔ ∃ c : Vec3, ∀ p ∈ S, p.Center = c) := by
  have hne : S ≠ [] := by
    intro h; rw [h] at h3; simp at h3
  have hsort := sortHittablesSliceByMostSpreadAxis_axis A S B
  refine ⟨_, _, hsort, ?_, ?_⟩
  · intro hpos
    obtain ⟨_, hm0, hm1⟩ := partition_strict_of_spread_pos S (mostSpreadAxis S) hne hpos
    refine ⟨by omega, by omega, ?_⟩
    unfold createBvh.split
    rw [hsort]
    dsimp only
    rw [if_neg (by omega)]
  · constructor
    · intro hmid
      have hnpos : centerSpread S (mostSpreadAxis S) ≤ 0 := by
        by_contra hc
        obtain ⟨_, hm0, hm1⟩ :=
          partition_strict_of_spread_pos S (mostSpreadAxis S) hne (not_le.mp hc)
        omega
      have hany : ∀ b : Axis, ∀ p ∈ S, ∀ q ∈ S, b.key p = b.key q := fun b =>
        keys_equal_of_spread_nonpos S b hne (le_trans (mostSpreadAxis_max S b) hnpos)
      obtain ⟨p0, hp0⟩ := List.exists_mem_of_ne_nil S hne
      refine ⟨p0.Center, fun p hp => ?_⟩
      have ex := hany .x p hp p0 hp0
      have ey := hany .y p hp p0 hp0
      have ez := hany .z p hp p0 hp0
      simp only [Axis.key] at ex ey ez
      cases hpc : p.Center with
      | mk X Y Z =>
        cases hqc : p0.Center with
        | mk X0 Y0 Z0 =>
          rw [hpc, hqc] at ex ey ez
          simp only at ex ey ez
          rw [ex, ey, ez]
    · rintro ⟨c, hc⟩
      obtain ⟨S1, hsort2, _, _⟩ := split_of_identical_centers A S B c h3 hc
      rw [hsort] at hsort2
      have := (Prod.mk.inj (Except.ok.inj hsort2)).2
      exact Or.inl this

/-- C20: the fallback is taken only for coincident centroids.  On a range of at least three
primitives: when the chosen axis has positive spread, the pivot lies strictly between the
least and the greatest centroid coordinate along it, the partition index satisfies
`start < mid < end`, and the split of `createBvh` keeps it (the fallback is not taken); and
the partition index is `start` or `end` (the fallback is taken) exactly when all centroids of
the range are identical. -/
theorem fallback_iff_identical_centers (list : List Primitive) (start end_ : Nat)
    (h3 : start + 3 ≤ end_) (h2 : end_ ≤ list.length) :
    ∃ list1 mid0,
      sortHittablesSliceByMostSpreadAxis list start end_ = .ok (list1, mid0) ∧
      (0 < centerSpread ((list.drop start).take (end_ - start))
          (mostSpreadAxis ((list.drop start).take (end_ - start))) →
        (∃ p ∈ (list.drop start).take (end_ - start),
          ∃ q ∈ (list.drop start).take (end_ - start),
            (∀ x ∈ (list.drop start).take (end_ - start),
              (mostSpreadAxis ((list.drop start).take (end_ - start))).key p ≤
                (mostSpreadAxis ((list.drop start).take (end_ - start))).key x ∧
              (mostSpreadAxis ((list.drop start).take (end_ - start))).key x ≤
                (mostSpreadAxis ((list.drop start).take (end_ - start))).key q) ∧
            (mostSpreadAxis ((list.drop start).take (end_ - start))).key p <
              centerMidpoint ((list.drop start).take (end_ - start))
                (mostSpreadAxis ((list.drop start).take (end_ - start))) ∧
            centerMidpoint ((list.drop start).take (end_ - start))
                (mostSpreadAxis ((list.drop start).take (end_ - start))) <
              (mostSpreadAxis ((list.drop start).take (end_ - start))).key q) ∧
        start < mid0 ∧ mid0 < end_ ∧
        createBvh.split list start end_ = .ok (list1, mid0)) ∧
      ((mid0 = start ∨ mid0 = end_) ↔
        ∃ c : Vec3, ∀ p ∈ (list.drop start).take (end_ - start), p.Center = c) := by
  obtain ⟨hdec, hA, hS⟩ := range_decomposition list start end_ (by omega) h2
  have hne : (list.drop start).take (end_ - start) ≠ [] := by
    intro h; rw [h] at hS; simp at hS; omega
  obtain ⟨list1, mid0, hsort, hpos, hiff⟩ :=
    fallback_iff_append (list.take start) ((list.drop start).take (end_ - start))
      (list.drop end_) (by omega)
  have e : start + (end_ - start) = end_ := by omega
  rw [hA, hS, ← hdec, e] at hsort hpos
  rw [hA, hS, e] at hiff
  refine ⟨list1, mid0, hsort, fun h => ?_, hiff⟩
  obtain ⟨g1, g2, g3⟩ := hpos h
  exact ⟨(partition_strict_of_spread_pos _ _ hne h).1, g1, g2, g3⟩

/-- C20, at a concrete input: three unit spheres along the x axis, whose spread along x is
`20`; the partition index is `1`. -/
theorem fallback_iff_identical_centers_witness :
    (0 + 3 ≤ 3 ∧ 3 ≤ [unitSphereAt 0 0 0, unitSphereAt 20 0 0, unitSphereAt 10 0 0].length) ∧
    centerSpread [unitSphereAt 0 0 0, unitSphereAt 20 0 0, unitSphereAt 10 0 0]
      (mostSpreadAxis [unitSphereAt 0 0 0, unitSphereAt 20 0 0, unitSphereAt 10 0 0]) = 20 ∧
    ∃ list1 mid0,
      sortHittablesSliceByMostSpreadAxis
        [unitSphereAt 0 0 0, unitSphereAt 20 0 0, unitSphereAt 10 0 0] 0 3 = .ok (list1, mid0) ∧
      0 < mid0 ∧ mid0 < 3 ∧
      createBvh.split [unitSphereAt 0 0 0, unitSphereAt 20 0 0, unitSphereAt 10 0 0] 0 3 =
        .ok (list1, mid0) := by
  have hs : centerSpread [unitSphereAt 0 0 0, unitSphereAt 20 0 0, unitSphereAt 10 0 0]
      (mostSpreadAxis [unitSphereAt 0 0 0, unitSphereAt 20 0 0, unitSphereAt 10 0 0]) = 20 := by
    decide!
  obtain ⟨list1, mid0, hsort, hpos, _⟩ :=
    fallback_iff_identical_centers [unitSphereAt 0 0 0, unitSphereAt 20 0 0, unitSphereAt 10 0 0]
      0 3 (by decide) (by decide)
  have hp : 0 < centerSpread
      (([unitSphereAt 0 0 0, unitSphereAt 20 0 0, unitSphereAt 10 0 0].drop 0).take (3 - 0))
      (mostSpreadAxis
        (([unitSphereAt 0 0 0, unitSphereAt 20 0 0, unitSphereAt 10 0 0].drop 0).take
          (3 - 0))) := by
    have e : ([unitSphereAt 0 0 0, unitSphereAt 20 0 0, unitSphereAt 10 0 0].drop 0).take
        (3 - 0) = [unitSphereAt 0 0 0, unitSphereAt 20 0 0, unitSphereAt 10 0 0] := rfl
    rw [e, hs]
    norm_num
  obtain ⟨_, g1, g2, g3⟩ := hpos hp
  exact ⟨⟨by decide, by decide⟩, hs, list1, mid0, hsort, g1, g2, g3⟩

/-! ## Lemmas on binary64 comparisons -/

theorem F64.le_nan_left (y : F64) : F64.nan.le y = false := by
  cases y <;> rfl

theorem F64.le_nan_right (x : F64) : x.le F64.nan = false := by
  cases x <;> rfl

theorem Binary64.sphere.recordAt_RayLength_f64 (s : Binary64.sphere) (r : Binary64.ray)
    (root : F64) : (s.recordAt r root).RayLength = root := rfl

end Solstrale
